import Mathlib

/-!
Verification development for the Memory SSA / reaching-definitions core of
the dg program-slicing toolkit.  The definitions shallowly embed the C++
sources: src/lib/analysis/MemorySSA/MemorySSA.cpp and
src/src/analysis/ReachingDefinitions/Srg/IntervalMap.h.  Components whose
code is not shipped under src/ (Offset.h, RDMap.h with DefinitionsMap,
the RWBBlock operations) are modelled from the specification, as marked in
their doc comments.
-/

namespace dg

/-- Modelled from the spec: Offset (analysis/Offset.h is not in src) is a
non-negative byte offset or the sentinel UNKNOWN; arithmetic with UNKNOWN
yields UNKNOWN and UNKNOWN compares above every known offset. -/
inductive Offset where
  | known : Nat → Offset
  | unknown : Offset
deriving DecidableEq

/-- Offset::isUnknown. -/
def Offset.isUnknown : Offset → Bool
  | .unknown => true
  | .known _ => false

/-- Modelled from the spec: Offset addition; UNKNOWN propagates. -/
def Offset.add : Offset → Offset → Offset
  | .known a, .known b => .known (a + b)
  | _, _ => .unknown

/-- Modelled from the spec: Offset subtraction (used only for the split
pieces inside killOverlapping); UNKNOWN propagates, known values use
truncated subtraction. -/
def Offset.sub : Offset → Offset → Offset
  | .known a, .known b => .known (a - b)
  | _, _ => .unknown

/-- Modelled from the spec: Offset comparison a <= b with the UNKNOWN
sentinel as the greatest element. -/
def Offset.ble : Offset → Offset → Bool
  | _, .unknown => true
  | .unknown, .known _ => false
  | .known a, .known b => a ≤ b

/-- IntervalMap.h: an interval given by a start offset and a length.
The bytes covered are [start, start+len); a length of UNKNOWN means
"to the end of the object" (spec section 4.1). -/
structure Interval where
  start : Offset
  len : Offset
deriving DecidableEq

/-- Interval::isUnknown from IntervalMap.h: an interval is unknown iff its
start is unknown or its length equals 0. -/
def Interval.isUnknown (i : Interval) : Bool :=
  i.start.isUnknown || i.len == Offset.known 0

/-- Modelled from the spec: intervalsOverlap (RDMap.h is not in src) tests
whether the half-open ranges [s1, s1+l1) and [s2, s2+l2) intersect, where a
length of UNKNOWN extends the range to the end of the object. -/
def intervalsOverlap (s1 : Nat) (l1 : Offset) (s2 : Nat) (l2 : Offset) : Bool :=
  (match l2 with
   | .known l => decide (s1 < s2 + l)
   | .unknown => true) &&
  (match l1 with
   | .known l => decide (s2 < s1 + l)
   | .unknown => true)

/-- Interval::overlaps from IntervalMap.h: false whenever either side is
unknown, otherwise the half-open ranges are tested for intersection. -/
def Interval.overlaps (a b : Interval) : Bool :=
  if a.isUnknown || b.isUnknown then false
  else
    match a.start, b.start with
    | .known s1, .known s2 => intervalsOverlap s1 a.len s2 b.len
    | _, _ => false

/-- Interval::isSubsetOf from IntervalMap.h:
start >= other.start and start + len <= other.start + other.len. -/
def Interval.isSubsetOf (a b : Interval) : Bool :=
  Offset.ble b.start a.start &&
  Offset.ble (Offset.add a.start a.len) (Offset.add b.start b.len)

namespace IntervalMap

/-- IntervalMap::killOverlapping from IntervalMap.h.  The source iterates
over the buckets, erases every bucket whose key interval overlaps ki, and
collects split pieces of partially-overlapping buckets into a local vector
to_add; that local vector is dropped when the function returns, so the net
effect on the bucket list is exactly the removal of every overlapping
bucket. -/
def killOverlapping {V : Type} (buckets : List (Interval × V)) (ki : Interval) :
    List (Interval × V) :=
  buckets.filter (fun it => !(it.fst.overlaps ki))

/-- The split pieces of one bucket that killOverlapping computes into its
local to_add vector (lines 180-189 of IntervalMap.h): when the bucket key
overlaps ki and ki is not a subset of the key, the two pieces
[key.start, ki.start) and [ki.start+ki.len, key.start+key.len) are built. -/
def splitPieces {V : Type} (ki : Interval) (it : Interval × V) : List (Interval × V) :=
  if it.fst.overlaps ki && !(ki.isSubsetOf it.fst) then
    [ (⟨it.fst.start, Offset.sub ki.start it.fst.start⟩, it.snd),
      (⟨Offset.add ki.start ki.len,
        Offset.sub (Offset.add it.fst.start it.fst.len) (Offset.add ki.start ki.len)⟩,
       it.snd) ]
  else []

/-- IntervalMap::add from IntervalMap.h: push the new bucket at the end. -/
def add {V : Type} (buckets : List (Interval × V)) (i : Interval) (v : V) :
    List (Interval × V) :=
  buckets ++ [(i, v)]

/-- IntervalMap::collectAll from IntervalMap.h: values of all buckets whose
key intersects the queried interval; buckets are visited in reverse order
(ReverseLookup = true), and a bucket is reported whenever the query is
unknown, its key is unknown, or its key overlaps the query. -/
def collectAll {V : Type} (buckets : List (Interval × V)) (i : Interval) : List V :=
  ((buckets.reverse).filter
    (fun it => i.isUnknown || it.fst.isUnknown || it.fst.overlaps i)).map (·.snd)

end IntervalMap

/-- Helper for gap computation: a nonempty known range [fst, snd) where
snd = none denotes an unbounded right end. -/
abbrev Piece := Nat × Option Nat

/-- x lies strictly below the (possibly unbounded) end e. -/
def belowEnd (x : Nat) (e : Option Nat) : Bool :=
  match e with
  | none => true
  | some v => decide (x < v)

/-- The two pieces overlap (nonempty intersection of half-open ranges). -/
def pieceOverlap (g k : Piece) : Bool :=
  belowEnd g.fst k.snd && belowEnd k.fst g.snd

/-- Subtract piece k from piece g, keeping the nonempty remainders. -/
def pieceSub (g k : Piece) : List Piece :=
  if !pieceOverlap g k then [g]
  else
    (if g.fst < k.fst then [(g.fst, some k.fst)] else []) ++
    (match k.snd with
     | none => []
     | some ke => if belowEnd ke g.snd then [(ke, g.snd)] else [])

/-- Subtract every piece in ks from the disjoint pieces gs. -/
def subtractList (gs ks : List Piece) : List Piece :=
  ks.foldl (fun acc k => acc.flatMap (fun g => pieceSub g k)) gs

/-- The range of a non-unknown interval as a piece; none for unknown
intervals. -/
def Interval.pieceOf (i : Interval) : Option Piece :=
  if i.isUnknown then none
  else
    match i.start with
    | .known s =>
        some (s, match i.len with
                 | .known l => some (s + l)
                 | .unknown => none)
    | .unknown => none

/-- Back from a piece to an interval. -/
def pieceToInterval (p : Piece) : Interval :=
  ⟨.known p.fst,
   match p.snd with
   | some e => .known (e - p.fst)
   | none => .unknown⟩

/-! ## The RW graph data model -/

/-- Node identities: RWNode pointers are modelled by natural numbers. -/
abbrev NodeId := Nat

/-- Block identities: RWBBlock pointers are modelled by natural numbers. -/
abbrev BlockId := Nat

/-- A memory target: the process-wide UNKNOWN_MEMORY sentinel or a concrete
memory object, recognized by identity. -/
inductive MemTarget where
  | unknownMem : MemTarget
  | var : Nat → MemTarget
deriving DecidableEq

/-- RWNode::isUnknown on the target handle. -/
def MemTarget.isUnknown : MemTarget → Bool
  | .unknownMem => true
  | .var _ => false

/-- DefSite: a triple (target, offset, len) identifying a byte range of a
memory object. -/
structure DefSite where
  target : MemTarget
  offset : Offset
  len : Offset
deriving DecidableEq

/-- The byte interval of a def-site. -/
def DefSite.interval (ds : DefSite) : Interval :=
  ⟨ds.offset, ds.len⟩

/-- A set of nodes, kept as an insertion-ordered duplicate-free list
(std::set of pointers in the reference, realized deterministically). -/
abbrev NodeSet := List NodeId

/-- Insert into a node set keeping insertion order. -/
def nsInsert (s : NodeSet) (v : NodeId) : NodeSet :=
  if v ∈ s then s else s ++ [v]

/-- Union of node sets keeping insertion order of the left operand. -/
def nsUnion (a b : NodeSet) : NodeSet :=
  b.foldl nsInsert a

/-- The per-target bucket list of a DefinitionsMap. -/
abbrev TargetBuckets := List (Interval × NodeSet)

/-- Modelled from the spec: DefinitionsMap (RDMap.h is not in src) maps each
target to an interval-keyed bucket list; entries are kept in first-insertion
order for reproducible iteration.  The per-target buckets use the src
IntervalMap representation. -/
structure DefinitionsMap where
  entries : List (MemTarget × TargetBuckets)
deriving DecidableEq

/-- Empty definitions map. -/
def DefinitionsMap.empty : DefinitionsMap := ⟨[]⟩

/-- The buckets recorded for a target ([] when the target is absent). -/
def DefinitionsMap.getBuckets (m : DefinitionsMap) (t : MemTarget) : TargetBuckets :=
  match m.entries.find? (fun e => decide (e.fst = t)) with
  | some e => e.snd
  | none => []

/-- Replace (or append) the bucket list of a target. -/
def DefinitionsMap.setBuckets (m : DefinitionsMap) (t : MemTarget) (bs : TargetBuckets) :
    DefinitionsMap :=
  if (m.entries.find? (fun e => decide (e.fst = t))).isSome then
    ⟨m.entries.map (fun e => if e.fst = t then (t, bs) else e)⟩
  else ⟨m.entries ++ [(t, bs)]⟩

/-- Modelled from the spec: DefinitionsMap::definesTarget. -/
def DefinitionsMap.definesTarget (m : DefinitionsMap) (t : MemTarget) : Bool :=
  (m.entries.find? (fun e => decide (e.fst = t))).isSome

/-- Modelled from the spec: DefinitionsMap::get returns the union of the
value sets of every bucket of ds.target whose key intersects the queried
range; the per-target query is the src IntervalMap::collectAll, so a bucket
also matches when the query or its key is an unknown interval. -/
def DefinitionsMap.get (m : DefinitionsMap) (ds : DefSite) : NodeSet :=
  (IntervalMap.collectAll (m.getBuckets ds.target) ds.interval).foldl nsUnion []

/-- Modelled from the spec: DefinitionsMap::undefinedIntervals enumerates the
sub-ranges of ds.range not covered by any non-unknown interval key recorded
for ds.target; an unknown query range has no precisely computable gaps and
yields the empty list. -/
def DefinitionsMap.undefinedIntervals (m : DefinitionsMap) (ds : DefSite) : List Interval :=
  match ds.interval.pieceOf with
  | none => []
  | some g =>
      let keys := (m.getBuckets ds.target).filterMap (fun it => it.fst.pieceOf)
      (subtractList [g] keys).map pieceToInterval

/-- Modelled from the spec: DefinitionsMap::update performs the strong
update: kill the existing coverage of ds.range on ds.target (src
IntervalMap::killOverlapping) and insert the bucket ds.range -> {v}
(src IntervalMap::add). -/
def DefinitionsMap.update (m : DefinitionsMap) (ds : DefSite) (v : NodeId) :
    DefinitionsMap :=
  m.setBuckets ds.target
    (IntervalMap.add (IntervalMap.killOverlapping (m.getBuckets ds.target) ds.interval)
      ds.interval [v])

/-- Modelled from the spec: DefinitionsMap::add with a whole value set —
weak update: merge the values into every bucket of ds.target whose key
overlaps ds.range and insert fresh buckets for the uncovered sub-ranges; a
def-site with an unknown range is registered as a single fresh bucket. -/
def DefinitionsMap.addSet (m : DefinitionsMap) (ds : DefSite) (vs : NodeSet) :
    DefinitionsMap :=
  let bs := m.getBuckets ds.target
  if ds.interval.isUnknown then
    m.setBuckets ds.target (IntervalMap.add bs ds.interval vs)
  else
    let gaps := m.undefinedIntervals ds
    let bs1 := bs.map (fun it =>
      if it.fst.overlaps ds.interval then (it.fst, nsUnion it.snd vs) else it)
    m.setBuckets ds.target (gaps.foldl (fun acc i => IntervalMap.add acc i vs) bs1)

/-- Modelled from the spec: DefinitionsMap::add of a single value. -/
def DefinitionsMap.add (m : DefinitionsMap) (ds : DefSite) (v : NodeId) :
    DefinitionsMap :=
  m.addSet ds [v]

/-- Modelled from the spec: DefinitionsMap::addAll adds the value to the
value set of every (target, interval) bucket currently present. -/
def DefinitionsMap.addAll (m : DefinitionsMap) (v : NodeId) : DefinitionsMap :=
  ⟨m.entries.map (fun e => (e.fst, e.snd.map (fun it => (it.fst, nsInsert it.snd v))))⟩

/-- RWNodeType: normal nodes, PHI nodes, and the UNKNOWN_MEMORY node. -/
inductive RWNodeType where
  | GENERIC
  | PHI
  | UNKNOWN
deriving DecidableEq

/-- The per-node static data of an RWNode: its kind and its overwrites /
defs / uses def-site lists. -/
structure RWNodeData where
  ty : RWNodeType
  overwrites : List DefSite
  defs : List DefSite
  uses : List DefSite
deriving DecidableEq

/-- The mutable analysis state: node data (extended when PHIs are created),
defuse result sets, block backreferences, node-level successor edges, the
ordered node list and DefinitionsMap of every block, the static predecessor
edges and block ordering, the append-only PHI registry _phis, and the
allocation counter for fresh node identities. -/
structure AState where
  ndata : NodeId → RWNodeData
  defuse : NodeId → NodeSet
  nodeBlock : NodeId → Option BlockId
  nodeSuccs : NodeId → List NodeId
  blockNodes : BlockId → List NodeId
  blockDefs : BlockId → DefinitionsMap
  preds : BlockId → List BlockId
  blocks : List BlockId
  phis : List NodeId
  nextId : Nat

/-- Replace the definitions map of one block. -/
def AState.setBlockDefs (σ : AState) (b : BlockId) (m : DefinitionsMap) : AState :=
  { σ with blockDefs := fun c => if c = b then m else σ.blockDefs c }

/-- node->defuse.add(vs): union vs into the defuse set of n. -/
def AState.addDefuse (σ : AState) (n : NodeId) (vs : NodeSet) : AState :=
  { σ with defuse := fun m => if m = n then nsUnion (σ.defuse n) vs else σ.defuse m }

/-- graph.create(RWNodeType::PHI) followed by addOverwrites and the
_phis.emplace_back registration: allocate a fresh PHI node carrying the
single overwrites entry ds. -/
def createPhi (σ : AState) (ds : DefSite) : NodeId × AState :=
  let p := σ.nextId
  (p, { σ with
        ndata := fun m => if m = p then ⟨RWNodeType.PHI, [ds], [], []⟩ else σ.ndata m,
        phis := σ.phis ++ [p],
        nextId := p + 1 })

/-- Modelled from the spec: RWBBlock::prependAndUpdateCFG (the block class
is not in src) installs n as the new first node of block b, sets its block
backreference, and rewires the node-level CFG so that the successor of n is
the former first node. -/
def prependAndUpdateCFG (σ : AState) (b : BlockId) (n : NodeId) : AState :=
  let old := σ.blockNodes b
  { σ with
    blockNodes := fun c => if c = b then n :: old else σ.blockNodes c,
    nodeBlock := fun m => if m = n then some b else σ.nodeBlock m,
    nodeSuccs := fun m =>
      if m = n then (match old with | f :: _ => [f] | [] => []) else σ.nodeSuccs m }

/-- Modelled from the spec: RWBBlock::getSinglePredecessor returns the
unique predecessor when exactly one exists. -/
def getSinglePredecessor (σ : AState) (b : BlockId) : Option BlockId :=
  match σ.preds b with
  | [p] => some p
  | _ => none

/-- MemorySSATransformation::findDefinitionsInBlock from MemorySSA.cpp:
collect the known definitions of ds and of (UNKNOWN_MEMORY, 0, UNKNOWN) in
the block, then for every uncovered interval create a PHI node, record it
in the block's definitions map, prepend it to the block, and append it to
the result. -/
def findDefinitionsInBlock (σ : AState) (b : BlockId) (ds : DefSite) :
    NodeSet × AState :=
  let defs1 := (σ.blockDefs b).get ds
  let unknown := (σ.blockDefs b).get ⟨MemTarget.unknownMem, Offset.known 0, Offset.unknown⟩
  let uncovered := (σ.blockDefs b).undefinedIntervals ds
  uncovered.foldl (fun acc i =>
    let phiDs : DefSite := ⟨ds.target, i.start, i.len⟩
    let r := createPhi acc.snd phiDs
    let σ2 := (r.snd).setBlockDefs b (((r.snd).blockDefs b).update phiDs r.fst)
    let σ3 := prependAndUpdateCFG σ2 b r.fst
    (acc.fst ++ [r.fst], σ3)) (defs1 ++ unknown, σ)

/-- MemorySSATransformation::findDefinitions from MemorySSA.cpp: a null
block yields the empty set (dead-code defensive case); otherwise collect
the block's known definitions and, for every uncovered interval, either
recurse into a unique predecessor or create a PHI in this block.  The C++
recursion has no explicit bound; the embedding adds fuel, consumed at each
nested call. -/
def findDefinitions (fuel : Nat) (σ : AState) (ob : Option BlockId) (ds : DefSite) :
    NodeSet × AState :=
  match fuel, ob with
  | _, none => ([], σ)
  | 0, some _ => ([], σ)
  | fuel + 1, some b =>
    let defs1 := (σ.blockDefs b).get ds
    let unknown := (σ.blockDefs b).get ⟨MemTarget.unknownMem, Offset.known 0, Offset.unknown⟩
    let uncovered := (σ.blockDefs b).undefinedIntervals ds
    uncovered.foldl (fun acc i =>
      match getSinglePredecessor acc.snd b with
      | some p =>
          let r := findDefinitions fuel acc.snd (some p) ds
          (acc.fst ++ r.fst, r.snd)
      | none =>
          let phiDs : DefSite := ⟨ds.target, i.start, i.len⟩
          let r := createPhi acc.snd phiDs
          let σ2 := (r.snd).setBlockDefs b (((r.snd).blockDefs b).update phiDs r.fst)
          let σ3 := prependAndUpdateCFG σ2 b r.fst
          (acc.fst ++ [r.fst], σ3)) (defs1 ++ unknown, σ)

/-- One node step of MemorySSATransformation::performLvn: strong updates
for overwrites, weak updates for defs (with the unknown-memory special
case), and defuse collection for uses. -/
def lvnNode (b : BlockId) (σ : AState) (n : NodeId) : AState :=
  let d := σ.ndata n
  let σ1 := d.overwrites.foldl
    (fun σa ds => σa.setBlockDefs b ((σa.blockDefs b).update ds n)) σ
  let σ2 := d.defs.foldl
    (fun σa ds =>
      if ds.target.isUnknown then
        let σb := σa.setBlockDefs b ((σa.blockDefs b).addAll n)
        σb.setBlockDefs b
          ((σb.blockDefs b).add ⟨ds.target, Offset.known 0, Offset.unknown⟩ n)
      else
        let r := findDefinitionsInBlock σa b ds
        let σb := (r.snd).addDefuse n r.fst
        σb.setBlockDefs b ((σb.blockDefs b).add ds n)) σ1
  d.uses.foldl
    (fun σa ds =>
      let r := findDefinitionsInBlock σa b ds
      (r.snd).addDefuse n r.fst) σ2

/-- MemorySSATransformation::performLvn for one block: process the nodes of
the block in program order (the snapshot taken at entry; prepending PHIs at
the block head does not disturb the iteration). -/
def performLvnBlock (σ : AState) (b : BlockId) : AState :=
  (σ.blockNodes b).foldl (lvnNode b) σ

/-- MemorySSATransformation::performLvn over all blocks. -/
def performLvn (σ : AState) : AState :=
  σ.blocks.foldl performLvnBlock σ

/-- The minimum of a worklist under the given key (with node identity as the
tiebreaker): models popping the first element of the std::set of pending
PHIs, whose order is the run-dependent pointer order abstracted by key. -/
def popMin (key : NodeId → Nat) (l : List NodeId) : Option NodeId :=
  l.foldl (fun acc n =>
    match acc with
    | none => some n
    | some m =>
        if key n < key m then some n
        else if key n = key m ∧ n < m then some n
        else some m) none

/-- Result of the GVN worklist loop: the final state, and whether a popped
PHI with a null block backreference was ever encountered (the C++
dereferences the block unconditionally at that point). -/
structure GvnRes where
  st : AState
  hitNull : Bool

/-- MemorySSATransformation::performGvn from MemorySSA.cpp: repeatedly pop
a pending PHI, take its single overwrites entry and its block, and for each
predecessor collect definitions via findDefinitions, queueing any PHIs
created during the call.  The pop order of the std::set of RWNode pointers
is abstracted by key; fuel bounds the loop. -/
def gvnLoop (key : NodeId → Nat) (fdFuel : Nat) :
    Nat → AState → List NodeId → Bool → GvnRes
  | 0, σ, _, hn => ⟨σ, hn⟩
  | fuel + 1, σ, pending, hn =>
    match popMin key pending with
    | none => ⟨σ, hn⟩
    | some phi =>
      let rest := pending.erase phi
      match (σ.ndata phi).overwrites with
      | [] => gvnLoop key fdFuel fuel σ rest hn
      | ds :: _ =>
        match σ.nodeBlock phi with
        | none => gvnLoop key fdFuel fuel σ rest true
        | some b =>
          let z := (σ.preds b).foldl
            (fun (acc : AState × List NodeId) p =>
              let old := acc.fst.phis.length
              let r := findDefinitions fdFuel acc.fst (some p) ds
              let σb := (r.snd).addDefuse phi r.fst
              (σb, acc.snd ++ σb.phis.drop old))
            (σ, rest)
          gvnLoop key fdFuel fuel z.fst z.snd hn

/-- MemorySSATransformation::performGvn: run the worklist loop starting
from the PHIs registered so far. -/
def performGvn (key : NodeId → Nat) (fdFuel gvnFuel : Nat) (σ : AState) : GvnRes :=
  gvnLoop key fdFuel gvnFuel σ σ.phis false

/-- recGatherNonPhisDefs from MemorySSA.cpp: visit the PHI unless already
visited (acc.fst is the visited set, acc.snd the collected non-PHI result),
then walk its defuse set, collecting non-PHI entries and recursing into PHI
entries.  Fuel, consumed once per visited PHI, bounds the recursion depth
that the C++ bounds by the finiteness of the visited set. -/
def recGatherNonPhisDefs (σ : AState) :
    Nat → NodeId → List NodeId × List NodeId → List NodeId × List NodeId
  | 0, _, acc => acc
  | fuel + 1, phi, acc =>
    if phi ∈ acc.fst then acc
    else
      (σ.defuse phi).foldl
        (fun a x =>
          if (σ.ndata x).ty ≠ RWNodeType.PHI then (a.fst, nsInsert a.snd x)
          else recGatherNonPhisDefs σ fuel x a)
        (acc.fst ++ [phi], acc.snd)

/-- gatherNonPhisDefs from MemorySSA.cpp: flatten the given nodes to their
transitively reachable non-PHI definitions. -/
def gatherNonPhisDefs (σ : AState) (fuel : Nat) (nodes : List NodeId) : List NodeId :=
  (nodes.foldl
    (fun a x =>
      if (σ.ndata x).ty ≠ RWNodeType.PHI then (a.fst, nsInsert a.snd x)
      else recGatherNonPhisDefs σ fuel x a)
    ([], [])).snd

/-- Modelled from the spec: RWNode::usesUnknown (the node class is not in
src) — some uses def-site touches unknown memory: its target is
UNKNOWN_MEMORY or one of its offsets is UNKNOWN. -/
def usesUnknown (σ : AState) (n : NodeId) : Bool :=
  (σ.ndata n).uses.any
    (fun ds => ds.target.isUnknown || ds.offset.isUnknown || ds.len.isUnknown)

/-- The block-walking overload of
MemorySSATransformation::findAllReachingDefinitions: with a visited-blocks
guard, copy the whole entry of any target the local map does not define yet
(collecting its nodes), fill only the uncovered gaps for targets already
defined (without collecting), and recurse into the predecessors — a copy of
the local map per predecessor when there are several, with foundDefs and
visitedBlocks shared. -/
def findAllRDWalk (σ : AState) (fuel : Nat) (defs : DefinitionsMap)
    (ob : Option BlockId) (found : NodeSet) (visited : List BlockId) :
    NodeSet × List BlockId :=
  match fuel, ob with
  | _, none => (found, visited)
  | 0, some _ => (found, visited)
  | fuel + 1, some b =>
    if b ∈ visited then (found, visited)
    else
      let visited1 := visited ++ [b]
      let z := ((σ.blockDefs b).entries).foldl
        (fun (acc : DefinitionsMap × NodeSet) e =>
          if !(acc.fst.definesTarget e.fst) then
            (acc.fst.setBuckets e.fst e.snd,
             e.snd.foldl (fun f it => nsUnion f it.snd) acc.snd)
          else
            (e.snd.foldl (fun (d : DefinitionsMap) it =>
               let gaps := d.undefinedIntervals ⟨e.fst, it.fst.start, it.fst.len⟩
               gaps.foldl (fun d2 i => d2.addSet ⟨e.fst, i.start, i.len⟩ it.snd) d)
              acc.fst,
             acc.snd))
        (defs, found)
      match getSinglePredecessor σ b with
      | some p => findAllRDWalk σ fuel z.fst (some p) z.snd visited1
      | none =>
          (σ.preds b).foldl
            (fun (acc : NodeSet × List BlockId) p =>
               findAllRDWalk σ fuel z.fst (some p) acc.fst acc.snd)
            (z.snd, visited1)

/-- MemorySSATransformation::findAllReachingDefinitions on a node: replay
the LVN map construction over the nodes of the node's block preceding it,
collect every node recorded in that local map, walk the predecessor blocks
(the starting block deliberately not marked visited), and flatten the found
definitions through gatherNonPhisDefs. -/
def findAllReachingDefinitions (σ : AState) (fuel : Nat) (fromN : NodeId) :
    List NodeId :=
  match σ.nodeBlock fromN with
  | none => []
  | some b =>
    let upto := (σ.blockNodes b).takeWhile (fun n => decide (n ≠ fromN))
    let defs := upto.foldl (fun d n =>
      let nd := σ.ndata n
      let d1 := nd.overwrites.foldl (fun dd ds => dd.update ds n) d
      nd.defs.foldl (fun dd ds =>
        if ds.target.isUnknown then
          (dd.addAll n).add ⟨ds.target, Offset.known 0, Offset.unknown⟩ n
        else dd.add ds n) d1) DefinitionsMap.empty
    let found0 := defs.entries.foldl
      (fun f e => e.snd.foldl (fun f2 it => nsUnion f2 it.snd) f) []
    let w :=
      match getSinglePredecessor σ b with
      | some p => findAllRDWalk σ fuel defs (some p) found0 []
      | none =>
          (σ.preds b).foldl
            (fun acc p => findAllRDWalk σ fuel defs (some p) acc.fst acc.snd)
            (found0, [])
    gatherNonPhisDefs σ fuel w.fst

/-- MemorySSATransformation::getReachingDefinitions: uses touching unknown
memory take the fallback path, all others flatten their defuse set. -/
def getReachingDefinitions (σ : AState) (fuel : Nat) (use : NodeId) : List NodeId :=
  if usesUnknown σ use then findAllReachingDefinitions σ fuel use
  else gatherNonPhisDefs σ fuel (σ.defuse use)

/-- The LVN-then-GVN pipeline with an explicit worklist pop order. -/
def runAnalysis (key : NodeId → Nat) (fdFuel gvnFuel : Nat) (σ : AState) : AState :=
  (performGvn key fdFuel gvnFuel (performLvn σ)).st

/-- The behaviour that the killOverlapping comment documents (and that the
spec describes for the strong update): remove only the intersection with ki
from every bucket, splitting a bucket whose coverage extends beyond ki and
retaining its value on the remainder.  Stated for comparison with the
source implementation killOverlapping above. -/
def killOverlappingDocumented {V : Type} (buckets : List (Interval × V)) (ki : Interval) :
    List (Interval × V) :=
  buckets.flatMap (fun it =>
    if it.fst.overlaps ki then
      match it.fst.pieceOf, ki.pieceOf with
      | some g, some k => (pieceSub g k).map (fun p => (pieceToInterval p, it.snd))
      | _, _ => []
    else [it])

/-- The in-block part of findDefinitions / findDefinitionsInBlock: the known
definitions of ds together with the definitions of unknown memory. -/
def localDefs (σ : AState) (b : BlockId) (ds : DefSite) : NodeSet :=
  (σ.blockDefs b).get ds ++
  (σ.blockDefs b).get ⟨MemTarget.unknownMem, Offset.known 0, Offset.unknown⟩

/-! ## Concrete input graphs used by counterexamples and witnesses -/

/-- Scenario S4 of the spec: one block holding n1 = node 1 with
overwrites (t,0,4), nU = node 2 with defs (UNKNOWN_MEMORY,0,UNKNOWN), and
u = node 3 with uses (t,0,4). -/
def s4state : AState := {
  ndata := fun n =>
    if n = 1 then ⟨.GENERIC, [⟨.var 0, .known 0, .known 4⟩], [], []⟩
    else if n = 2 then ⟨.GENERIC, [], [⟨.unknownMem, .known 0, .unknown⟩], []⟩
    else if n = 3 then ⟨.GENERIC, [], [], [⟨.var 0, .known 0, .known 4⟩]⟩
    else ⟨.GENERIC, [], [], []⟩,
  defuse := fun _ => [],
  nodeBlock := fun n => if 1 ≤ n ∧ n ≤ 3 then some 0 else none,
  nodeSuccs := fun _ => [],
  blockNodes := fun b => if b = 0 then [1, 2, 3] else [],
  blockDefs := fun _ => DefinitionsMap.empty,
  preds := fun _ => [],
  blocks := [0],
  phis := [],
  nextId := 4 }

/-- One block holding node 1 with defs (t, UNKNOWN, UNKNOWN) followed by
node 2 with overwrites (t, 0, 4): the weak definition at unknown offsets
leaves an unknown-keyed bucket on target t that the strong update of node 2
cannot kill. -/
def c1state : AState := {
  ndata := fun n =>
    if n = 1 then ⟨.GENERIC, [], [⟨.var 0, .unknown, .unknown⟩], []⟩
    else if n = 2 then ⟨.GENERIC, [⟨.var 0, .known 0, .known 4⟩], [], []⟩
    else ⟨.GENERIC, [], [], []⟩,
  defuse := fun _ => [],
  nodeBlock := fun n => if 1 ≤ n ∧ n ≤ 2 then some 0 else none,
  nodeSuccs := fun _ => [],
  blockNodes := fun b => if b = 0 then [1, 2] else [],
  blockDefs := fun _ => DefinitionsMap.empty,
  preds := fun _ => [],
  blocks := [0],
  phis := [],
  nextId := 3 }

/-- One block holding the single node 1 that both overwrites and weakly
defines (t, 0, 4): the weak-update lookup finds the strong update that the
same node installed a moment earlier. -/
def c4state : AState := {
  ndata := fun n =>
    if n = 1 then
      ⟨.GENERIC, [⟨.var 0, .known 0, .known 4⟩], [⟨.var 0, .known 0, .known 4⟩], []⟩
    else ⟨.GENERIC, [], [], []⟩,
  defuse := fun _ => [],
  nodeBlock := fun n => if n = 1 then some 0 else none,
  nodeSuccs := fun _ => [],
  blockNodes := fun b => if b = 0 then [1] else [],
  blockDefs := fun _ => DefinitionsMap.empty,
  preds := fun _ => [],
  blocks := [0],
  phis := [],
  nextId := 2 }

/-- Entry block 0 (no predecessors) branching to blocks 1 and 2; node 1 in
block 1 uses (t,0,4) and node 2 in block 2 uses (t,0,8).  LVN plants PHI 3
in block 1 and PHI 4 in block 2; GVN then demands overlapping ranges of
target t from block 0 in whichever order the worklist yields. -/
def c8state : AState := {
  ndata := fun n =>
    if n = 1 then ⟨.GENERIC, [], [], [⟨.var 0, .known 0, .known 4⟩]⟩
    else if n = 2 then ⟨.GENERIC, [], [], [⟨.var 0, .known 0, .known 8⟩]⟩
    else ⟨.GENERIC, [], [], []⟩,
  defuse := fun _ => [],
  nodeBlock := fun n => if n = 1 then some 1 else if n = 2 then some 2 else none,
  nodeSuccs := fun _ => [],
  blockNodes := fun b => if b = 1 then [1] else if b = 2 then [2] else [],
  blockDefs := fun _ => DefinitionsMap.empty,
  preds := fun b => if b = 1 ∨ b = 2 then [0] else [],
  blocks := [0, 1, 2],
  phis := [],
  nextId := 3 }

/-- One block holding the single node 1 whose only def-site is a weak def
of (t, 0, 4): the benign configuration for the amended non-self-definition
property. -/
def c4wstate : AState := {
  ndata := fun n =>
    if n = 1 then ⟨.GENERIC, [], [⟨.var 0, .known 0, .known 4⟩], []⟩
    else ⟨.GENERIC, [], [], []⟩,
  defuse := fun _ => [],
  nodeBlock := fun n => if n = 1 then some 0 else none,
  nodeSuccs := fun _ => [],
  blockNodes := fun b => if b = 0 then [1] else [],
  blockDefs := fun _ => DefinitionsMap.empty,
  preds := fun _ => [],
  blocks := [0],
  phis := [],
  nextId := 2 }

/-- A small resolved state used to instantiate general theorems: one block
whose use node 3 has the defuse set {1, 2}. -/
def c5wstate : AState := {
  ndata := fun n =>
    if n = 3 then ⟨.GENERIC, [], [], [⟨.var 0, .known 0, .known 4⟩]⟩
    else ⟨.GENERIC, [], [], []⟩,
  defuse := fun n => if n = 3 then [1, 2] else [],
  nodeBlock := fun n => if 1 ≤ n ∧ n ≤ 3 then some 0 else none,
  nodeSuccs := fun _ => [],
  blockNodes := fun b => if b = 0 then [1, 2, 3] else [],
  blockDefs := fun _ => DefinitionsMap.empty,
  preds := fun _ => [],
  blocks := [0],
  phis := [],
  nextId := 4 }

/-- Every PHI registered so far carries a block backreference. -/
def PhisHaveBlocks (σ : AState) : Prop :=
  ∀ p ∈ σ.phis, (σ.nodeBlock p).isSome = true

/-- The body of the defuse walk of recGatherNonPhisDefs / gatherNonPhisDefs,
named for the proofs: collect a non-PHI node, recurse into a PHI node. -/
def gatherStep (σ : AState) (fuel : Nat) (a : List NodeId × List NodeId)
    (x : NodeId) : List NodeId × List NodeId :=
  if (σ.ndata x).ty ≠ RWNodeType.PHI then (a.fst, nsInsert a.snd x)
  else recGatherNonPhisDefs σ fuel x a

/-- How many members of the universe U are not yet in the visited list. -/
def unvisited {α : Type} [DecidableEq α] (U visited : List α) : Nat :=
  (U.filter (fun x => decide (x ∉ visited))).length

/-- Some bucket of the list carries the value v. -/
def bucketsHasValue (bs : TargetBuckets) (v : NodeId) : Prop :=
  ∃ it ∈ bs, v ∈ it.snd

/-- Some bucket of some entry of the map carries the value v. -/
def mapHasValue (m : DefinitionsMap) (v : NodeId) : Prop :=
  ∃ e ∈ m.entries, ∃ it ∈ e.snd, v ∈ it.snd

/-- Some bucket recorded for target t carries the value v. -/
def mapHasValueOn (m : DefinitionsMap) (t : MemTarget) (v : NodeId) : Prop :=
  ∃ it ∈ m.getBuckets t, v ∈ it.snd

/-- The per-block copy step of the findAllReachingDefinitions walker, named
for the proofs: the updated local map and found set after merging the
definitions recorded in block b. -/
def walkCopy (σ : AState) (b : BlockId) (defs : DefinitionsMap) (found : NodeSet) :
    DefinitionsMap × NodeSet :=
  ((σ.blockDefs b).entries).foldl
    (fun (acc : DefinitionsMap × NodeSet) e =>
      if !(acc.fst.definesTarget e.fst) then
        (acc.fst.setBuckets e.fst e.snd,
         e.snd.foldl (fun f it => nsUnion f it.snd) acc.snd)
      else
        (e.snd.foldl (fun (d : DefinitionsMap) it =>
           let gaps := d.undefinedIntervals ⟨e.fst, it.fst.start, it.fst.len⟩
           gaps.foldl (fun d2 i => d2.addSet ⟨e.fst, i.start, i.len⟩ it.snd) d)
          acc.fst,
         acc.snd))
    (defs, found)

/-- The LVN replay over a node prefix performed at the start of
findAllReachingDefinitions, named for the proofs. -/
def lvnReplay (σ : AState) (upto : List NodeId) : DefinitionsMap :=
  upto.foldl (fun d n =>
    let nd := σ.ndata n
    let d1 := nd.overwrites.foldl (fun dd ds => dd.update ds n) d
    nd.defs.foldl (fun dd ds =>
      if ds.target.isUnknown then
        (dd.addAll n).add ⟨ds.target, Offset.known 0, Offset.unknown⟩ n
      else dd.add ds n) d1) DefinitionsMap.empty

/-- Every node recorded anywhere in a definitions map, named for the
proofs. -/
def collectFound (m : DefinitionsMap) : NodeSet :=
  m.entries.foldl (fun f e => e.snd.foldl (fun f2 it => nsUnion f2 it.snd) f) []

/-! ## Helper lemmas -/

theorem find_map_set {entries : List (MemTarget × TargetBuckets)} {t : MemTarget}
    {bs : TargetBuckets}
    (h : (entries.find? (fun e => decide (e.fst = t))).isSome = true) :
    (entries.map (fun e => if e.fst = t then (t, bs) else e)).find?
      (fun e => decide (e.fst = t)) = some (t, bs) := by
  induction entries with
  | nil => simp at h
  | cons e tl ih =>
    by_cases he : e.fst = t
    · simp only [List.map_cons, if_pos he]
      rw [List.find?_cons_of_pos _ (by simp)]
    · simp only [List.map_cons, if_neg he]
      rw [List.find?_cons_of_neg _ (by simp [he])]
      rw [List.find?_cons_of_neg _ (by simp [he])] at h
      exact ih h

theorem find_append_none {α : Type} {l1 l2 : List α} {p : α → Bool}
    (h : l1.find? p = none) : (l1 ++ l2).find? p = l2.find? p := by
  induction l1 with
  | nil => rfl
  | cons a tl ih =>
    by_cases hpa : p a = true
    · rw [List.find?_cons_of_pos _ hpa] at h; exact absurd h (by simp)
    · rw [List.find?_cons_of_neg _ (by simp [hpa])] at h
      rw [List.cons_append, List.find?_cons_of_neg _ (by simp [hpa])]
      exact ih h

theorem getBuckets_setBuckets (m : DefinitionsMap) (t : MemTarget) (bs : TargetBuckets) :
    (m.setBuckets t bs).getBuckets t = bs := by
  unfold DefinitionsMap.setBuckets DefinitionsMap.getBuckets
  by_cases h : (m.entries.find? (fun e => decide (e.fst = t))).isSome = true
  · rw [if_pos h]
    simp only
    rw [find_map_set h]
  · rw [if_neg h]
    simp only
    have hn : m.entries.find? (fun e => decide (e.fst = t)) = none := by
      cases hf : m.entries.find? (fun e => decide (e.fst = t)) with
      | none => rfl
      | some v => rw [hf] at h; simp at h
    rw [find_append_none hn]
    rw [List.find?_cons_of_pos _ (by simp)]

theorem overlaps_self_of_not_unknown {i : Interval} (h : i.isUnknown = false) :
    i.overlaps i = true := by
  have hor : (i.isUnknown || i.isUnknown) = false := by rw [h]; rfl
  unfold Interval.overlaps
  rw [hor]
  simp only [Bool.false_eq_true, if_false]
  unfold Interval.isUnknown at h
  rcases Bool.or_eq_false_iff.mp h with ⟨hs, hl⟩
  cases hstart : i.start with
  | unknown => rw [hstart] at hs; simp [Offset.isUnknown] at hs
  | known s =>
    unfold intervalsOverlap
    cases hlen : i.len with
    | unknown => rfl
    | known l =>
      rw [hlen] at hl
      have : l ≠ 0 := by
        intro h0; rw [h0] at hl; simp at hl
      have h1 : s < s + l := by omega
      simp [h1]

theorem mem_killOverlapping {V : Type} {bs : List (Interval × V)} {ki : Interval}
    {x : Interval × V} (h : x ∈ IntervalMap.killOverlapping bs ki) :
    x ∈ bs ∧ x.fst.overlaps ki = false := by
  unfold IntervalMap.killOverlapping at h
  constructor
  · exact List.mem_of_mem_filter h
  · have := List.of_mem_filter h
    simpa using this

theorem foldl_inv {α β : Type} (P : β → Prop) (f : β → α → β) :
    ∀ (l : List α) (init : β), P init → (∀ x a, P x → a ∈ l → P (f x a)) →
      P (l.foldl f init) := by
  intro l
  induction l with
  | nil => intro init h _; exact h
  | cons a tl ih =>
    intro init h hstep
    exact ih _ (hstep init a h (by simp)) (fun x c hx hc => hstep x c hx (by simp [hc]))

theorem findDefinitions_succ (fuel : Nat) (σ : AState) (b : BlockId) (ds : DefSite) :
    findDefinitions (fuel + 1) σ (some b) ds =
      ((σ.blockDefs b).undefinedIntervals ds).foldl
        (fun acc i =>
          match getSinglePredecessor acc.snd b with
          | some p =>
              (acc.fst ++ (findDefinitions fuel acc.snd (some p) ds).fst,
               (findDefinitions fuel acc.snd (some p) ds).snd)
          | none =>
              let phiDs : DefSite := ⟨ds.target, i.start, i.len⟩
              let r := createPhi acc.snd phiDs
              let σ2 := (r.snd).setBlockDefs b (((r.snd).blockDefs b).update phiDs r.fst)
              let σ3 := prependAndUpdateCFG σ2 b r.fst
              (acc.fst ++ [r.fst], σ3))
        (localDefs σ b ds, σ) := rfl

theorem mem_nsInsert {s : NodeSet} {v x : NodeId} (h : x ∈ nsInsert s v) :
    x ∈ s ∨ x = v := by
  unfold nsInsert at h
  by_cases hv : v ∈ s
  · rw [if_pos hv] at h; exact Or.inl h
  · rw [if_neg hv] at h
    rcases List.mem_append.mp h with h1 | h2
    · exact Or.inl h1
    · exact Or.inr (by simpa using h2)

theorem mem_nsInsert_of_mem {s : NodeSet} {v x : NodeId} (h : x ∈ s) :
    x ∈ nsInsert s v := by
  unfold nsInsert
  by_cases hv : v ∈ s
  · rw [if_pos hv]; exact h
  · rw [if_neg hv]; exact List.mem_append.mpr (Or.inl h)

theorem mem_nsUnion {a b : NodeSet} {x : NodeId} (h : x ∈ nsUnion a b) :
    x ∈ a ∨ x ∈ b := by
  unfold nsUnion at h
  induction b generalizing a with
  | nil => exact Or.inl h
  | cons y tl ih =>
    rcases ih (a := nsInsert a y) h with h1 | h2
    · rcases mem_nsInsert h1 with h3 | h3
      · exact Or.inl h3
      · exact Or.inr (by simp [h3])
    · exact Or.inr (List.mem_cons_of_mem y h2)

theorem mem_nsUnion_left {a b : NodeSet} {x : NodeId} (h : x ∈ a) :
    x ∈ nsUnion a b := by
  unfold nsUnion
  induction b generalizing a with
  | nil => exact h
  | cons y tl ih => exact ih (mem_nsInsert_of_mem h)

theorem get_values {m : DefinitionsMap} {ds : DefSite} {x : NodeId}
    (h : x ∈ m.get ds) : mapHasValueOn m ds.target x := by
  unfold DefinitionsMap.get at h
  have haux : ∀ (ls : List NodeSet) (acc : NodeSet),
      x ∈ ls.foldl nsUnion acc → x ∈ acc ∨ ∃ l ∈ ls, x ∈ l := by
    intro ls
    induction ls with
    | nil => intro acc hx; exact Or.inl hx
    | cons l tl ih =>
      intro acc hx
      rcases ih _ hx with h1 | ⟨l2, hl2, hx2⟩
      · rcases mem_nsUnion h1 with h2 | h2
        · exact Or.inl h2
        · exact Or.inr ⟨l, by simp, h2⟩
      · exact Or.inr ⟨l2, List.mem_cons_of_mem l hl2, hx2⟩
  rcases haux _ _ h with h1 | ⟨l, hl, hx⟩
  · exact absurd h1 (List.not_mem_nil x)
  · unfold IntervalMap.collectAll at hl
    rcases List.mem_map.mp hl with ⟨it, hit, rfl⟩
    have hmem : it ∈ m.getBuckets ds.target := by
      have := List.mem_of_mem_filter hit
      exact List.mem_reverse.mp this
    exact ⟨it, hmem, hx⟩

theorem find_append_some {α : Type} {l1 l2 : List α} {p : α → Bool} {v : α}
    (h : l1.find? p = some v) : (l1 ++ l2).find? p = some v := by
  induction l1 with
  | nil => simp at h
  | cons a tl ih =>
    by_cases hpa : p a = true
    · rw [List.find?_cons_of_pos _ hpa] at h
      rw [List.cons_append, List.find?_cons_of_pos _ hpa]
      exact h
    · rw [List.find?_cons_of_neg _ (by simp [hpa])] at h
      rw [List.cons_append, List.find?_cons_of_neg _ (by simp [hpa])]
      exact ih h

theorem getBuckets_setBuckets_other {m : DefinitionsMap} {t t2 : MemTarget}
    {bs : TargetBuckets} (h : t2 ≠ t) :
    (m.setBuckets t bs).getBuckets t2 = m.getBuckets t2 := by
  unfold DefinitionsMap.setBuckets DefinitionsMap.getBuckets
  by_cases hf : (m.entries.find? (fun e => decide (e.fst = t))).isSome = true
  · rw [if_pos hf]
    simp only
    have hmap : ∀ (l : List (MemTarget × TargetBuckets)),
        (l.map (fun e => if e.fst = t then (t, bs) else e)).find?
          (fun e => decide (e.fst = t2)) = l.find? (fun e => decide (e.fst = t2)) := by
      intro l
      induction l with
      | nil => rfl
      | cons e tl ih =>
        by_cases he : e.fst = t
        · simp only [List.map_cons, if_pos he]
          rw [List.find?_cons_of_neg _ (by simp; exact Ne.symm h),
            List.find?_cons_of_neg _ (by simp [he]; exact Ne.symm h)]
          exact ih
        · simp only [List.map_cons, if_neg he]
          by_cases he2 : e.fst = t2
          · rw [List.find?_cons_of_pos _ (by simp [he2]),
              List.find?_cons_of_pos _ (by simp [he2])]
          · rw [List.find?_cons_of_neg _ (by simp [he2]),
              List.find?_cons_of_neg _ (by simp [he2])]
            exact ih
    rw [hmap]
  · rw [if_neg hf]
    simp only
    cases hfind : m.entries.find? (fun e => decide (e.fst = t2)) with
    | some v => rw [find_append_some hfind]
    | none =>
      rw [find_append_none hfind]
      rw [List.find?_cons_of_neg _ (by simp; exact Ne.symm h), List.find?_nil]

theorem bucketsHasValue_getBuckets {m : DefinitionsMap} {t : MemTarget} {x : NodeId}
    (h : bucketsHasValue (m.getBuckets t) x) : mapHasValue m x := by
  obtain ⟨it, hit, hx⟩ := h
  unfold DefinitionsMap.getBuckets at hit
  cases hfind : m.entries.find? (fun e => decide (e.fst = t)) with
  | none => rw [hfind] at hit; exact absurd hit (List.not_mem_nil it)
  | some e =>
    rw [hfind] at hit
    exact ⟨e, List.mem_of_find?_eq_some hfind, it, hit, hx⟩

theorem mapHasValue_setBuckets {m : DefinitionsMap} {t : MemTarget}
    {bs : TargetBuckets} {x : NodeId} (h : mapHasValue (m.setBuckets t bs) x) :
    mapHasValue m x ∨ bucketsHasValue bs x := by
  obtain ⟨e, he, it, hit, hx⟩ := h
  unfold DefinitionsMap.setBuckets at he
  by_cases hf : (m.entries.find? (fun e => decide (e.fst = t))).isSome = true
  · rw [if_pos hf] at he
    simp only at he
    rcases List.mem_map.mp he with ⟨e0, he0, heq⟩
    by_cases he0t : e0.fst = t
    · rw [if_pos he0t] at heq
      right
      refine ⟨it, ?_, hx⟩
      rw [← heq] at hit
      exact hit
    · rw [if_neg he0t] at heq
      left
      exact ⟨e0, he0, it, heq ▸ hit, hx⟩
  · rw [if_neg hf] at he
    simp only at he
    rcases List.mem_append.mp he with h1 | h2
    · exact Or.inl ⟨e, h1, it, hit, hx⟩
    · right
      have : e = (t, bs) := by simpa using h2
      refine ⟨it, ?_, hx⟩
      rw [this] at hit
      exact hit

theorem bucketsHasValue_kill {bs : TargetBuckets} {ki : Interval} {x : NodeId}
    (h : bucketsHasValue (IntervalMap.killOverlapping bs ki) x) :
    bucketsHasValue bs x := by
  obtain ⟨it, hit, hx⟩ := h
  exact ⟨it, (mem_killOverlapping hit).1, hx⟩

theorem mapHasValue_update {m : DefinitionsMap} {ds : DefSite} {v x : NodeId}
    (h : mapHasValue (m.update ds v) x) : mapHasValue m x ∨ x = v := by
  unfold DefinitionsMap.update at h
  rcases mapHasValue_setBuckets h with h1 | h2
  · exact Or.inl h1
  · obtain ⟨it, hit, hx⟩ := h2
    unfold IntervalMap.add at hit
    rcases List.mem_append.mp hit with h3 | h4
    · exact Or.inl (bucketsHasValue_getBuckets (bucketsHasValue_kill ⟨it, h3, hx⟩))
    · have : it = (ds.interval, [v]) := by simpa using h4
      rw [this] at hx
      exact Or.inr (by simpa using hx)

theorem mapHasValue_addSet {m : DefinitionsMap} {ds : DefSite} {vs : NodeSet}
    {x : NodeId} (h : mapHasValue (m.addSet ds vs) x) :
    mapHasValue m x ∨ x ∈ vs := by
  unfold DefinitionsMap.addSet at h
  by_cases hu : ds.interval.isUnknown = true
  · rw [if_pos hu] at h
    rcases mapHasValue_setBuckets h with h1 | h2
    · exact Or.inl h1
    · obtain ⟨it, hit, hx⟩ := h2
      unfold IntervalMap.add at hit
      rcases List.mem_append.mp hit with h3 | h4
      · exact Or.inl (bucketsHasValue_getBuckets ⟨it, h3, hx⟩)
      · have : it = (ds.interval, vs) := by simpa using h4
        rw [this] at hx
        exact Or.inr hx
  · rw [if_neg hu] at h
    rcases mapHasValue_setBuckets h with h1 | h2
    · exact Or.inl h1
    · obtain ⟨it, hit, hx⟩ := h2
      have hfold : ∀ (gaps : List Interval) (acc : TargetBuckets),
          it ∈ gaps.foldl (fun a i => IntervalMap.add a i vs) acc →
          it ∈ acc ∨ it.snd = vs := by
        intro gaps
        induction gaps with
        | nil => intro acc hacc; exact Or.inl hacc
        | cons g tl ih =>
          intro acc hacc
          rcases ih _ hacc with h5 | h6
          · unfold IntervalMap.add at h5
            rcases List.mem_append.mp h5 with h7 | h8
            · exact Or.inl h7
            · have : it = (g, vs) := by simpa using h8
              exact Or.inr (by rw [this])
          · exact Or.inr h6
      rcases hfold _ _ hit with h5 | h6
      · rcases List.mem_map.mp h5 with ⟨it0, hit0, heq⟩
        by_cases hov : it0.fst.overlaps ds.interval = true
        · rw [if_pos hov] at heq
          rw [← heq] at hx
          simp only at hx
          rcases mem_nsUnion hx with h7 | h7
          · exact Or.inl (bucketsHasValue_getBuckets ⟨it0, hit0, h7⟩)
          · exact Or.inr h7
        · rw [if_neg hov] at heq
          exact Or.inl (bucketsHasValue_getBuckets ⟨it0, hit0, heq ▸ hx⟩)
      · rw [h6] at hx
        exact Or.inr hx

theorem mapHasValue_add {m : DefinitionsMap} {ds : DefSite} {v x : NodeId}
    (h : mapHasValue (m.add ds v) x) : mapHasValue m x ∨ x = v := by
  rcases mapHasValue_addSet h with h1 | h2
  · exact Or.inl h1
  · exact Or.inr (by simpa using h2)

theorem mapHasValue_addAll {m : DefinitionsMap} {v x : NodeId}
    (h : mapHasValue (m.addAll v) x) : mapHasValue m x ∨ x = v := by
  obtain ⟨e, he, it, hit, hx⟩ := h
  unfold DefinitionsMap.addAll at he
  rcases List.mem_map.mp he with ⟨e0, he0, heq⟩
  rw [← heq] at hit
  simp only at hit
  rcases List.mem_map.mp hit with ⟨it0, hit0, heq2⟩
  rw [← heq2] at hx
  simp only at hx
  rcases mem_nsInsert hx with h1 | h1
  · exact Or.inl ⟨e0, he0, it0, hit0, h1⟩
  · exact Or.inr h1

theorem mapHasValue_empty {x : NodeId} : ¬ mapHasValue DefinitionsMap.empty x := by
  intro h
  obtain ⟨e, he, -⟩ := h
  exact absurd he (List.not_mem_nil e)

theorem phiStep_inv (σ : AState) (b : BlockId) (phiDs : DefSite)
    (h : PhisHaveBlocks σ) :
    PhisHaveBlocks
      (prependAndUpdateCFG
        ((createPhi σ phiDs).snd.setBlockDefs b
          (((createPhi σ phiDs).snd.blockDefs b).update phiDs (createPhi σ phiDs).fst))
        b (createPhi σ phiDs).fst) := by
  intro q hq
  simp only [createPhi, prependAndUpdateCFG, AState.setBlockDefs] at hq ⊢
  rcases List.mem_append.mp hq with hq1 | hq2
  · by_cases hqe : q = σ.nextId
    · simp [hqe]
    · simp only [if_neg hqe]
      exact h q hq1
  · have hqe : q = σ.nextId := by simpa using hq2
    simp [hqe]

theorem findDefinitionsInBlock_inv (σ : AState) (b : BlockId) (ds : DefSite)
    (h : PhisHaveBlocks σ) :
    PhisHaveBlocks (findDefinitionsInBlock σ b ds).snd := by
  unfold findDefinitionsInBlock
  have := foldl_inv (fun acc : NodeSet × AState => PhisHaveBlocks acc.snd)
    (fun acc i =>
      let phiDs : DefSite := ⟨ds.target, i.start, i.len⟩
      let r := createPhi acc.snd phiDs
      let σ2 := (r.snd).setBlockDefs b (((r.snd).blockDefs b).update phiDs r.fst)
      let σ3 := prependAndUpdateCFG σ2 b r.fst
      (acc.fst ++ [r.fst], σ3))
    ((σ.blockDefs b).undefinedIntervals ds)
    ((σ.blockDefs b).get ds ++
      (σ.blockDefs b).get ⟨MemTarget.unknownMem, Offset.known 0, Offset.unknown⟩, σ)
    h
    (fun x i hx _ => phiStep_inv x.snd b ⟨ds.target, i.start, i.len⟩ hx)
  exact this

theorem findDefinitions_inv :
    ∀ (fuel : Nat) (σ : AState) (ob : Option BlockId) (ds : DefSite),
      PhisHaveBlocks σ → PhisHaveBlocks (findDefinitions fuel σ ob ds).snd := by
  intro fuel
  induction fuel with
  | zero =>
    intro σ ob ds h
    cases ob <;> exact h
  | succ f ih =>
    intro σ ob ds h
    cases ob with
    | none => exact h
    | some b =>
      rw [findDefinitions_succ]
      refine foldl_inv (fun acc : NodeSet × AState => PhisHaveBlocks acc.snd) _ _ _ h ?_
      intro x i hx _
      cases hsp : getSinglePredecessor x.snd b with
      | some p => simpa [hsp] using ih x.snd (some p) ds hx
      | none => simpa [hsp] using phiStep_inv x.snd b ⟨ds.target, i.start, i.len⟩ hx

theorem lvnNode_inv (b : BlockId) (σ : AState) (n : NodeId)
    (h : PhisHaveBlocks σ) : PhisHaveBlocks (lvnNode b σ n) := by
  unfold lvnNode
  refine foldl_inv (fun σa => PhisHaveBlocks σa) _ _ _ ?_ ?_
  · refine foldl_inv (fun σa => PhisHaveBlocks σa) _ _ _ ?_ ?_
    · exact foldl_inv (fun σa => PhisHaveBlocks σa) _ _ _ h (fun x ds hx _ => hx)
    · intro x ds hx _
      by_cases hu : ds.target.isUnknown = true
      · simp only [hu, if_true]
        exact hx
      · simp only [Bool.not_eq_true] at hu
        simp only [hu, Bool.false_eq_true, if_false]
        exact fun q hq => findDefinitionsInBlock_inv x b ds hx q hq
  · intro x ds hx _
    exact fun q hq => findDefinitionsInBlock_inv x b ds hx q hq

theorem performLvn_inv (σ : AState) (h : PhisHaveBlocks σ) :
    PhisHaveBlocks (performLvn σ) := by
  unfold performLvn
  refine foldl_inv (fun σa => PhisHaveBlocks σa) _ _ _ h ?_
  intro x b hx _
  unfold performLvnBlock
  exact foldl_inv (fun σa => PhisHaveBlocks σa) _ _ _ hx
    (fun y n hy _ => lvnNode_inv b y n hy)

theorem findDefinitions_phis_mono :
    ∀ (fuel : Nat) (σ : AState) (ob : Option BlockId) (ds : DefSite) (x : NodeId),
      x ∈ σ.phis → x ∈ (findDefinitions fuel σ ob ds).snd.phis := by
  intro fuel
  induction fuel with
  | zero =>
    intro σ ob ds x hx
    cases ob <;> exact hx
  | succ f ih =>
    intro σ ob ds x hx
    cases ob with
    | none => exact hx
    | some b =>
      rw [findDefinitions_succ]
      refine foldl_inv (fun acc : NodeSet × AState => x ∈ acc.snd.phis) _ _ _ hx ?_
      intro a i ha _
      cases hsp : getSinglePredecessor a.snd b with
      | some p => simpa [hsp] using ih a.snd (some p) ds x ha
      | none =>
        simp only [hsp, createPhi, prependAndUpdateCFG, AState.setBlockDefs]
        exact List.mem_append.mpr (Or.inl ha)

theorem popMin_mem (key : NodeId → Nat) :
    ∀ (l : List NodeId) (n : NodeId), popMin key l = some n → n ∈ l := by
  have haux : ∀ (l : List NodeId) (acc : Option NodeId) (n : NodeId),
      l.foldl (fun acc m =>
        match acc with
        | none => some m
        | some k =>
            if key m < key k then some m
            else if key m = key k ∧ m < k then some m
            else some k) acc = some n → acc = some n ∨ n ∈ l := by
    intro l
    induction l with
    | nil => intro acc n h; exact Or.inl h
    | cons a tl ih =>
      intro acc n h
      rcases ih _ n h with hstep | htl
      · cases acc with
        | none =>
          dsimp only at hstep
          obtain rfl : a = n := Option.some_inj.mp hstep
          exact Or.inr (List.mem_cons_self _ _)
        | some k =>
          dsimp only at hstep
          by_cases h1 : key a < key k
          · rw [if_pos h1] at hstep
            obtain rfl : a = n := Option.some_inj.mp hstep
            exact Or.inr (List.mem_cons_self _ _)
          · rw [if_neg h1] at hstep
            by_cases h2 : key a = key k ∧ a < k
            · rw [if_pos h2] at hstep
              obtain rfl : a = n := Option.some_inj.mp hstep
              exact Or.inr (List.mem_cons_self _ _)
            · rw [if_neg h2] at hstep
              exact Or.inl hstep
      · exact Or.inr (List.mem_cons_of_mem a htl)
  intro l n h
  rcases haux l none n h with h1 | h2
  · exact absurd h1 (by simp)
  · exact h2

theorem gvnLoop_safe (key : NodeId → Nat) (fdFuel : Nat) :
    ∀ (gfuel : Nat) (σ : AState) (pending : List NodeId),
      PhisHaveBlocks σ → (∀ x ∈ pending, x ∈ σ.phis) →
      PhisHaveBlocks (gvnLoop key fdFuel gfuel σ pending false).st ∧
      (gvnLoop key fdFuel gfuel σ pending false).hitNull = false := by
  intro gfuel
  induction gfuel with
  | zero => intro σ pending h hp; exact ⟨h, rfl⟩
  | succ f ih =>
    intro σ pending h hp
    show PhisHaveBlocks (gvnLoop key fdFuel (f + 1) σ pending false).st ∧ _
    unfold gvnLoop
    cases hpop : popMin key pending with
    | none => exact ⟨h, rfl⟩
    | some phi =>
      simp only
      have hphi : phi ∈ σ.phis := hp phi (popMin_mem key pending phi hpop)
      have hrest : ∀ x ∈ pending.erase phi, x ∈ σ.phis :=
        fun x hx => hp x (List.mem_of_mem_erase hx)
      cases hov : (σ.ndata phi).overwrites with
      | nil => exact ih σ _ h hrest
      | cons ds tl =>
        cases hblk : σ.nodeBlock phi with
        | none =>
          have := h phi hphi
          rw [hblk] at this
          simp at this
        | some b =>
          have hfold := foldl_inv
            (fun acc : AState × List NodeId =>
              PhisHaveBlocks acc.fst ∧ (∀ x ∈ acc.snd, x ∈ acc.fst.phis))
            (fun acc p =>
              let old := acc.fst.phis.length
              let r := findDefinitions fdFuel acc.fst (some p) ds
              let σb := (r.snd).addDefuse phi r.fst
              (σb, acc.snd ++ σb.phis.drop old))
            (σ.preds b) (σ, pending.erase phi) ⟨h, hrest⟩ ?_
          · exact ih _ _ hfold.1 hfold.2
          · intro x p hx _
            refine ⟨?_, ?_⟩
            · exact fun q hq => findDefinitions_inv fdFuel x.fst (some p) ds hx.1 q hq
            · intro q hq
              rcases List.mem_append.mp hq with hq1 | hq2
              · exact findDefinitions_phis_mono fdFuel x.fst (some p) ds q (hx.2 q hq1)
              · exact List.drop_subset _ _ hq2

theorem length_filter_imp {α : Type} (l : List α) (p q : α → Bool)
    (h : ∀ x ∈ l, q x = true → p x = true) :
    (l.filter q).length ≤ (l.filter p).length := by
  induction l with
  | nil => simp
  | cons a tl ih =>
    rw [List.filter_cons, List.filter_cons]
    have ih2 := ih (fun x hx => h x (List.mem_cons_of_mem a hx))
    by_cases hq : q a = true
    · rw [if_pos hq, if_pos (h a (by simp) hq)]
      simpa using ih2
    · rw [if_neg hq]
      by_cases hp : p a = true
      · rw [if_pos hp]
        simp only [List.length_cons]
        omega
      · rw [if_neg hp]
        exact ih2

theorem length_filter_lt {α : Type} (l : List α) (p q : α → Bool) (x : α)
    (himp : ∀ y ∈ l, q y = true → p y = true) (hx : x ∈ l)
    (hpx : p x = true) (hqx : q x = false) :
    (l.filter q).length < (l.filter p).length := by
  induction l with
  | nil => exact absurd hx (List.not_mem_nil x)
  | cons a tl ih =>
    rw [List.filter_cons, List.filter_cons]
    have hmono := length_filter_imp tl p q (fun y hy => himp y (List.mem_cons_of_mem _ hy))
    rcases List.mem_cons.mp hx with rfl | hxtl
    · rw [if_pos hpx, if_neg (by simp [hqx])]
      simp only [List.length_cons]
      omega
    · have ih2 := ih (fun y hy => himp y (List.mem_cons_of_mem _ hy)) hxtl
      by_cases hq : q a = true
      · rw [if_pos hq, if_pos (himp a (by simp) hq)]
        simp only [List.length_cons]
        omega
      · rw [if_neg hq]
        by_cases hp : p a = true
        · rw [if_pos hp]
          simp only [List.length_cons]
          omega
        · rw [if_neg hp]
          exact ih2

theorem unvisited_le_length {α : Type} [DecidableEq α] (U visited : List α) :
    unvisited U visited ≤ U.length :=
  List.length_filter_le _ _

theorem unvisited_anti {α : Type} [DecidableEq α] (U : List α) {v1 v2 : List α}
    (hsub : ∀ x ∈ v1, x ∈ v2) : unvisited U v2 ≤ unvisited U v1 := by
  unfold unvisited
  refine length_filter_imp U _ _ ?_
  intro x _ hx
  simp only [decide_eq_true_eq] at hx ⊢
  exact fun hmem => hx (hsub x hmem)

theorem unvisited_append_lt {α : Type} [DecidableEq α] {U visited : List α} {x : α}
    (hxU : x ∈ U) (hx : x ∉ visited) :
    unvisited U (visited ++ [x]) < unvisited U visited := by
  unfold unvisited
  refine length_filter_lt U _ _ x ?_ hxU ?_ ?_
  · intro y _ hy
    simp only [decide_eq_true_eq] at hy ⊢
    intro hmem
    exact hy (List.mem_append.mpr (Or.inl hmem))
  · simpa using hx
  · simp

theorem recGather_succ (σ : AState) (fuel : Nat) (phi : NodeId)
    (acc : List NodeId × List NodeId) :
    recGatherNonPhisDefs σ (fuel + 1) phi acc =
      if phi ∈ acc.fst then acc
      else (σ.defuse phi).foldl (gatherStep σ fuel) (acc.fst ++ [phi], acc.snd) := rfl

theorem gatherNonPhisDefs_eq (σ : AState) (fuel : Nat) (nodes : List NodeId) :
    gatherNonPhisDefs σ fuel nodes =
      (nodes.foldl (gatherStep σ fuel) ([], [])).snd := rfl

theorem gfold_fst_mono (σ : AState) (fuel : Nat)
    (hf : ∀ (phi : NodeId) (acc : List NodeId × List NodeId) (x : NodeId),
        x ∈ acc.fst → x ∈ (recGatherNonPhisDefs σ fuel phi acc).fst) :
    ∀ (l : List NodeId) (acc : List NodeId × List NodeId) (x : NodeId),
      x ∈ acc.fst → x ∈ (l.foldl (gatherStep σ fuel) acc).fst := by
  intro l
  induction l with
  | nil => intro acc x hx; exact hx
  | cons y tl ih =>
    intro acc x hx
    simp only [List.foldl_cons]
    refine ih _ x ?_
    unfold gatherStep
    by_cases hty : (σ.ndata y).ty ≠ RWNodeType.PHI
    · rw [if_pos hty]; exact hx
    · rw [if_neg hty]; exact hf y acc x hx

theorem recGather_fst_mono (σ : AState) :
    ∀ (fuel : Nat) (phi : NodeId) (acc : List NodeId × List NodeId) (x : NodeId),
      x ∈ acc.fst → x ∈ (recGatherNonPhisDefs σ fuel phi acc).fst := by
  intro fuel
  induction fuel with
  | zero => intro phi acc x hx; exact hx
  | succ f ih =>
    intro phi acc x hx
    rw [recGather_succ]
    by_cases hin : phi ∈ acc.fst
    · rw [if_pos hin]; exact hx
    · rw [if_neg hin]
      exact gfold_fst_mono σ f ih _ _ x (List.mem_append.mpr (Or.inl hx))

theorem gfold_snd_nonphi (σ : AState) (fuel : Nat)
    (hf : ∀ (phi : NodeId) (acc : List NodeId × List NodeId),
        (∀ x ∈ acc.snd, (σ.ndata x).ty ≠ RWNodeType.PHI) →
        ∀ x ∈ (recGatherNonPhisDefs σ fuel phi acc).snd,
          (σ.ndata x).ty ≠ RWNodeType.PHI) :
    ∀ (l : List NodeId) (acc : List NodeId × List NodeId),
      (∀ x ∈ acc.snd, (σ.ndata x).ty ≠ RWNodeType.PHI) →
      ∀ x ∈ (l.foldl (gatherStep σ fuel) acc).snd,
        (σ.ndata x).ty ≠ RWNodeType.PHI := by
  intro l
  induction l with
  | nil => intro acc h x hx; exact h x hx
  | cons y tl ih =>
    intro acc h x hx
    simp only [List.foldl_cons] at hx
    refine ih _ ?_ x hx
    unfold gatherStep
    by_cases hty : (σ.ndata y).ty ≠ RWNodeType.PHI
    · rw [if_pos hty]
      intro z hz
      rcases mem_nsInsert hz with h1 | h1
      · exact h z h1
      · rw [h1]; exact hty
    · rw [if_neg hty]
      exact hf y acc h

theorem recGather_snd_nonphi (σ : AState) :
    ∀ (fuel : Nat) (phi : NodeId) (acc : List NodeId × List NodeId),
      (∀ x ∈ acc.snd, (σ.ndata x).ty ≠ RWNodeType.PHI) →
      ∀ x ∈ (recGatherNonPhisDefs σ fuel phi acc).snd,
        (σ.ndata x).ty ≠ RWNodeType.PHI := by
  intro fuel
  induction fuel with
  | zero => intro phi acc h x hx; exact h x hx
  | succ f ih =>
    intro phi acc h x hx
    rw [recGather_succ] at hx
    by_cases hin : phi ∈ acc.fst
    · rw [if_pos hin] at hx; exact h x hx
    · rw [if_neg hin] at hx
      exact gfold_snd_nonphi σ f ih (σ.defuse phi) (acc.fst ++ [phi], acc.snd) h x hx

theorem gather_nonphi (σ : AState) (fuel : Nat) (nodes : List NodeId) :
    ∀ x ∈ gatherNonPhisDefs σ fuel nodes, (σ.ndata x).ty ≠ RWNodeType.PHI := by
  intro x hx
  rw [gatherNonPhisDefs_eq] at hx
  exact gfold_snd_nonphi σ fuel (recGather_snd_nonphi σ fuel) nodes ([], [])
    (fun z hz => absurd hz (List.not_mem_nil z)) x hx

theorem recGather_stable (σ : AState) (U : List NodeId)
    (hdu : ∀ m x, x ∈ σ.defuse m → x ∈ U) :
    ∀ (p : Nat) (phi : NodeId) (acc : List NodeId × List NodeId),
      phi ∈ U → unvisited U acc.fst ≤ p →
      ∀ f1 f2, p + 1 ≤ f1 → p + 1 ≤ f2 →
        recGatherNonPhisDefs σ f1 phi acc = recGatherNonPhisDefs σ f2 phi acc := by
  intro p
  induction p using Nat.strong_induction_on with
  | _ p IH =>
    intro phi acc hU hm f1 f2 hf1 hf2
    obtain ⟨q1, rfl⟩ : ∃ q, f1 = q + 1 := ⟨f1 - 1, by omega⟩
    obtain ⟨q2, rfl⟩ : ∃ q, f2 = q + 1 := ⟨f2 - 1, by omega⟩
    rw [recGather_succ, recGather_succ]
    by_cases hin : phi ∈ acc.fst
    · rw [if_pos hin, if_pos hin]
    · rw [if_neg hin, if_neg hin]
      have hlt : unvisited U (acc.fst ++ [phi]) < unvisited U acc.fst :=
        unvisited_append_lt hU hin
      have hppos : 1 ≤ p := by omega
      have haux : ∀ (l : List NodeId), (∀ x ∈ l, x ∈ U) →
          ∀ (st : List NodeId × List NodeId), unvisited U st.fst ≤ p - 1 →
            l.foldl (gatherStep σ q1) st = l.foldl (gatherStep σ q2) st := by
        intro l
        induction l with
        | nil => intro _ st _; rfl
        | cons y tl ihl =>
          intro hl st hst
          simp only [List.foldl_cons]
          by_cases hty : (σ.ndata y).ty ≠ RWNodeType.PHI
          · have hstep : gatherStep σ q1 st y = gatherStep σ q2 st y := by
              unfold gatherStep; rw [if_pos hty, if_pos hty]
            rw [hstep]
            refine ihl (fun x hx => hl x (List.mem_cons_of_mem y hx)) _ ?_
            have : (gatherStep σ q2 st y).fst = st.fst := by
              unfold gatherStep; rw [if_pos hty]
            rw [this]
            exact hst
          · have hstep : gatherStep σ q1 st y = gatherStep σ q2 st y := by
              unfold gatherStep
              rw [if_neg hty, if_neg hty]
              exact IH (p - 1) (by omega) y st (hl y (by simp)) hst q1 q2
                (by omega) (by omega)
            rw [hstep]
            refine ihl (fun x hx => hl x (List.mem_cons_of_mem y hx)) _ ?_
            have hsub : ∀ x ∈ st.fst, x ∈ (gatherStep σ q2 st y).fst := by
              intro x hx
              unfold gatherStep
              rw [if_neg hty]
              exact recGather_fst_mono σ q2 y st x hx
            exact le_trans (unvisited_anti U hsub) hst
      exact haux (σ.defuse phi) (fun x hx => hdu phi x hx)
        (acc.fst ++ [phi], acc.snd) (by simp only; omega)

theorem gfold_stable (σ : AState) (U : List NodeId)
    (hdu : ∀ m x, x ∈ σ.defuse m → x ∈ U) (p : Nat) :
    ∀ (l : List NodeId), (∀ x ∈ l, x ∈ U) →
      ∀ (st : List NodeId × List NodeId), unvisited U st.fst ≤ p →
      ∀ f1 f2, p + 1 ≤ f1 → p + 1 ≤ f2 →
        l.foldl (gatherStep σ f1) st = l.foldl (gatherStep σ f2) st := by
  intro l
  induction l with
  | nil => intro _ st _ f1 f2 _ _; rfl
  | cons y tl ih =>
    intro hl st hst f1 f2 hf1 hf2
    simp only [List.foldl_cons]
    obtain ⟨q1, rfl⟩ : ∃ q, f1 = q + 1 := ⟨f1 - 1, by omega⟩
    obtain ⟨q2, rfl⟩ : ∃ q, f2 = q + 1 := ⟨f2 - 1, by omega⟩
    by_cases hty : (σ.ndata y).ty ≠ RWNodeType.PHI
    · have hstep : gatherStep σ (q1 + 1) st y = gatherStep σ (q2 + 1) st y := by
        unfold gatherStep; rw [if_pos hty, if_pos hty]
      rw [hstep]
      refine ih (fun x hx => hl x (List.mem_cons_of_mem y hx)) _ ?_ _ _ hf1 hf2
      have : (gatherStep σ (q2 + 1) st y).fst = st.fst := by
        unfold gatherStep; rw [if_pos hty]
      rw [this]
      exact hst
    · have hstep : gatherStep σ (q1 + 1) st y = gatherStep σ (q2 + 1) st y := by
        unfold gatherStep
        rw [if_neg hty, if_neg hty]
        exact recGather_stable σ U hdu p y st (hl y (by simp)) hst
          (q1 + 1) (q2 + 1) hf1 hf2
      rw [hstep]
      refine ih (fun x hx => hl x (List.mem_cons_of_mem y hx)) _ ?_ _ _ hf1 hf2
      have hsub : ∀ x ∈ st.fst, x ∈ (gatherStep σ (q2 + 1) st y).fst := by
        intro x hx
        unfold gatherStep
        rw [if_neg hty]
        exact recGather_fst_mono σ (q2 + 1) y st x hx
      exact le_trans (unvisited_anti U hsub) hst

theorem gatherNonPhisDefs_stable (σ : AState) (U : List NodeId)
    (hdu : ∀ m x, x ∈ σ.defuse m → x ∈ U) (nodes : List NodeId)
    (hn : ∀ x ∈ nodes, x ∈ U) (f1 f2 : Nat)
    (hf1 : U.length + 1 ≤ f1) (hf2 : U.length + 1 ≤ f2) :
    gatherNonPhisDefs σ f1 nodes = gatherNonPhisDefs σ f2 nodes := by
  rw [gatherNonPhisDefs_eq, gatherNonPhisDefs_eq]
  rw [gfold_stable σ U hdu U.length nodes hn ([], [])
    (by unfold unvisited; exact List.length_filter_le _ U) f1 f2 hf1 hf2]

theorem walk_none (σ : AState) (fuel : Nat) (defs : DefinitionsMap)
    (found : NodeSet) (visited : List BlockId) :
    findAllRDWalk σ fuel defs none found visited = (found, visited) := by
  cases fuel <;> rfl

theorem walk_succ (σ : AState) (fuel : Nat) (defs : DefinitionsMap) (b : BlockId)
    (found : NodeSet) (visited : List BlockId) :
    findAllRDWalk σ (fuel + 1) defs (some b) found visited =
      if b ∈ visited then (found, visited)
      else
        match getSinglePredecessor σ b with
        | some p =>
            findAllRDWalk σ fuel (walkCopy σ b defs found).fst (some p)
              (walkCopy σ b defs found).snd (visited ++ [b])
        | none =>
            (σ.preds b).foldl
              (fun (acc : NodeSet × List BlockId) p =>
                 findAllRDWalk σ fuel (walkCopy σ b defs found).fst (some p)
                   acc.fst acc.snd)
              ((walkCopy σ b defs found).snd, visited ++ [b]) := rfl

theorem singlePred_mem {σ : AState} {b p : BlockId}
    (h : getSinglePredecessor σ b = some p) : p ∈ σ.preds b := by
  unfold getSinglePredecessor at h
  cases hp : σ.preds b with
  | nil => rw [hp] at h; exact absurd h (by simp)
  | cons x tl =>
    cases tl with
    | nil =>
      rw [hp] at h
      have hxp : x = p := by simpa using h
      simp [hp, hxp]
    | cons y tl2 => rw [hp] at h; exact absurd h (by simp)

theorem walkCopy_found (σ : AState) (U : List NodeId)
    (hBV : ∀ b e it x, e ∈ (σ.blockDefs b).entries → it ∈ e.snd → x ∈ it.snd → x ∈ U)
    (b : BlockId) (defs : DefinitionsMap) (found : NodeSet)
    (hfound : ∀ x ∈ found, x ∈ U) :
    ∀ x ∈ (walkCopy σ b defs found).snd, x ∈ U := by
  unfold walkCopy
  refine foldl_inv (fun acc : DefinitionsMap × NodeSet => ∀ x ∈ acc.snd, x ∈ U)
    _ _ _ hfound ?_
  intro acc e hacc hmem
  by_cases hd : (!(acc.fst.definesTarget e.fst)) = true
  · rw [if_pos hd]
    simp only
    refine foldl_inv (fun f : NodeSet => ∀ x ∈ f, x ∈ U) _ _ _ hacc ?_
    intro f it hf hit x hx
    rcases mem_nsUnion hx with h1 | h1
    · exact hf x h1
    · exact hBV b e it x hmem hit h1
  · rw [if_neg hd]
    exact hacc

theorem walk_visited_mono (σ : AState) :
    ∀ (fuel : Nat) (defs : DefinitionsMap) (ob : Option BlockId)
      (found : NodeSet) (visited : List BlockId) (x : BlockId),
      x ∈ visited → x ∈ (findAllRDWalk σ fuel defs ob found visited).snd := by
  intro fuel
  induction fuel with
  | zero => intro defs ob found visited x hx; cases ob <;> exact hx
  | succ f ih =>
    intro defs ob found visited x hx
    cases ob with
    | none => exact hx
    | some b =>
      rw [walk_succ]
      by_cases hb : b ∈ visited
      · rw [if_pos hb]; exact hx
      · rw [if_neg hb]
        have hx1 : x ∈ visited ++ [b] := List.mem_append.mpr (Or.inl hx)
        cases hsp : getSinglePredecessor σ b with
        | some p =>
          simp only [hsp]
          exact ih _ _ _ _ x hx1
        | none =>
          simp only [hsp]
          refine foldl_inv (fun acc : NodeSet × List BlockId => x ∈ acc.snd) _ _ _ hx1 ?_
          intro a p ha _
          exact ih _ _ _ _ x ha

theorem walk_found_sub (σ : AState) (U : List NodeId)
    (hBV : ∀ b e it x, e ∈ (σ.blockDefs b).entries → it ∈ e.snd → x ∈ it.snd → x ∈ U) :
    ∀ (fuel : Nat) (defs : DefinitionsMap) (ob : Option BlockId)
      (found : NodeSet) (visited : List BlockId),
      (∀ x ∈ found, x ∈ U) →
      ∀ x ∈ (findAllRDWalk σ fuel defs ob found visited).fst, x ∈ U := by
  intro fuel
  induction fuel with
  | zero =>
    intro defs ob found visited h x hx
    cases ob <;> exact h x hx
  | succ f ih =>
    intro defs ob found visited h x hx
    cases ob with
    | none => exact h x hx
    | some b =>
      rw [walk_succ] at hx
      by_cases hb : b ∈ visited
      · rw [if_pos hb] at hx; exact h x hx
      · rw [if_neg hb] at hx
        have hz := walkCopy_found σ U hBV b defs found h
        cases hsp : getSinglePredecessor σ b with
        | some p =>
          rw [hsp] at hx
          exact ih _ _ _ _ hz x hx
        | none =>
          rw [hsp] at hx
          have := foldl_inv
            (fun acc : NodeSet × List BlockId => ∀ y ∈ acc.fst, y ∈ U)
            (fun acc p => findAllRDWalk σ f (walkCopy σ b defs found).fst (some p)
              acc.fst acc.snd)
            (σ.preds b) ((walkCopy σ b defs found).snd, visited ++ [b]) hz ?_
          · exact this x hx
          · intro a p ha _
            exact ih _ _ _ _ ha

theorem walk_stable (σ : AState) (W : List BlockId)
    (hW : ∀ b p, p ∈ σ.preds b → p ∈ W) :
    ∀ (q : Nat) (ob : Option BlockId) (defs : DefinitionsMap) (found : NodeSet)
      (visited : List BlockId),
      (∀ b, ob = some b → b ∈ W) →
      unvisited W visited ≤ q →
      ∀ f1 f2, q + 1 ≤ f1 → q + 1 ≤ f2 →
        findAllRDWalk σ f1 defs ob found visited
          = findAllRDWalk σ f2 defs ob found visited := by
  intro q
  induction q using Nat.strong_induction_on with
  | _ q IH =>
    intro ob defs found visited hob hm f1 f2 hf1 hf2
    cases ob with
    | none => rw [walk_none, walk_none]
    | some b =>
      obtain ⟨a1, rfl⟩ : ∃ a, f1 = a + 1 := ⟨f1 - 1, by omega⟩
      obtain ⟨a2, rfl⟩ : ∃ a, f2 = a + 1 := ⟨f2 - 1, by omega⟩
      rw [walk_succ, walk_succ]
      by_cases hb : b ∈ visited
      · rw [if_pos hb, if_pos hb]
      · rw [if_neg hb, if_neg hb]
        have hbW : b ∈ W := hob b rfl
        have hlt : unvisited W (visited ++ [b]) < unvisited W visited :=
          unvisited_append_lt hbW hb
        have hq1 : 1 ≤ q := by omega
        have hm1 : unvisited W (visited ++ [b]) ≤ q - 1 := by omega
        cases hsp : getSinglePredecessor σ b with
        | some p =>
          simp only [hsp]
          refine IH (q - 1) (by omega) (some p) _ _ _ ?_ hm1 a1 a2 (by omega) (by omega)
          intro b2 hb2
          have : p = b2 := by simpa using hb2
          rw [← this]
          exact hW b p (singlePred_mem hsp)
        | none =>
          simp only [hsp]
          have hfold : ∀ (ps : List BlockId), (∀ p ∈ ps, p ∈ W) →
              ∀ (acc : NodeSet × List BlockId),
                unvisited W acc.snd ≤ q - 1 →
                ps.foldl (fun (acc : NodeSet × List BlockId) p =>
                  findAllRDWalk σ a1 (walkCopy σ b defs found).fst (some p)
                    acc.fst acc.snd) acc =
                ps.foldl (fun (acc : NodeSet × List BlockId) p =>
                  findAllRDWalk σ a2 (walkCopy σ b defs found).fst (some p)
                    acc.fst acc.snd) acc := by
            intro ps hps
            induction ps with
            | nil => intro acc _; rfl
            | cons p tl ihp =>
              intro acc hacc
              simp only [List.foldl_cons]
              have hstep : findAllRDWalk σ a1 (walkCopy σ b defs found).fst (some p)
                  acc.fst acc.snd =
                  findAllRDWalk σ a2 (walkCopy σ b defs found).fst (some p)
                    acc.fst acc.snd := by
                refine IH (q - 1) (by omega) (some p) _ _ _ ?_ hacc a1 a2
                  (by omega) (by omega)
                intro b2 hb2
                have : p = b2 := by simpa using hb2
                rw [← this]
                exact hps p (by simp)
              rw [hstep]
              refine ihp (fun r hr => hps r (List.mem_cons_of_mem p hr)) _ ?_
              refine le_trans (unvisited_anti W ?_) hacc
              intro y hy
              exact walk_visited_mono σ a2 _ _ _ _ y hy
          exact hfold (σ.preds b) (fun p hp => hW b p hp)
            ((walkCopy σ b defs found).snd, visited ++ [b]) hm1

theorem findAllRD_some (σ : AState) (fuel : Nat) (fromN : NodeId) (b : BlockId)
    (hb : σ.nodeBlock fromN = some b) :
    findAllReachingDefinitions σ fuel fromN =
      gatherNonPhisDefs σ fuel
        (match getSinglePredecessor σ b with
         | some p =>
             findAllRDWalk σ fuel
               (lvnReplay σ ((σ.blockNodes b).takeWhile (fun n => decide (n ≠ fromN))))
               (some p)
               (collectFound
                 (lvnReplay σ ((σ.blockNodes b).takeWhile (fun n => decide (n ≠ fromN)))))
               []
         | none =>
             (σ.preds b).foldl
               (fun acc p =>
                  findAllRDWalk σ fuel
                    (lvnReplay σ
                      ((σ.blockNodes b).takeWhile (fun n => decide (n ≠ fromN))))
                    (some p) acc.fst acc.snd)
               (collectFound
                  (lvnReplay σ
                    ((σ.blockNodes b).takeWhile (fun n => decide (n ≠ fromN)))),
                [])).fst := by
  unfold findAllReachingDefinitions
  rw [hb]
  rfl

theorem lvnReplay_values (σ : AState) (upto : List NodeId) :
    ∀ x, mapHasValue (lvnReplay σ upto) x → x ∈ upto := by
  unfold lvnReplay
  have hmain := foldl_inv
    (fun d : DefinitionsMap => ∀ x, mapHasValue d x → x ∈ upto)
    (fun d n =>
      let nd := σ.ndata n
      let d1 := nd.overwrites.foldl (fun dd ds => dd.update ds n) d
      nd.defs.foldl (fun dd ds =>
        if ds.target.isUnknown then
          (dd.addAll n).add ⟨ds.target, Offset.known 0, Offset.unknown⟩ n
        else dd.add ds n) d1)
    upto DefinitionsMap.empty
    (fun x hx => absurd hx (mapHasValue_empty))
    ?step
  · exact hmain
  · intro d n hd hn
    simp only
    have hQ1 : ∀ x, mapHasValue
        ((σ.ndata n).overwrites.foldl (fun dd ds => dd.update ds n) d) x →
        x ∈ upto ∨ x = n := by
      refine foldl_inv
        (fun dd : DefinitionsMap => ∀ x, mapHasValue dd x → x ∈ upto ∨ x = n)
        _ _ _ (fun x hx => Or.inl (hd x hx)) ?_
      intro dd ds hdd _
      intro x hx
      rcases mapHasValue_update hx with h1 | h1
      · exact hdd x h1
      · exact Or.inr h1
    have hQ2 : ∀ x, mapHasValue
        ((σ.ndata n).defs.foldl (fun dd ds =>
          if ds.target.isUnknown then
            (dd.addAll n).add ⟨ds.target, Offset.known 0, Offset.unknown⟩ n
          else dd.add ds n)
          ((σ.ndata n).overwrites.foldl (fun dd ds => dd.update ds n) d)) x →
        x ∈ upto ∨ x = n := by
      refine foldl_inv
        (fun dd : DefinitionsMap => ∀ x, mapHasValue dd x → x ∈ upto ∨ x = n)
        _ _ _ hQ1 ?_
      intro dd ds hdd _
      intro x hx
      by_cases hu : ds.target.isUnknown = true
      · rw [if_pos hu] at hx
        rcases mapHasValue_add hx with h1 | h1
        · rcases mapHasValue_addAll h1 with h2 | h2
          · exact hdd x h2
          · exact Or.inr h2
        · exact Or.inr h1
      · rw [if_neg hu] at hx
        rcases mapHasValue_add hx with h1 | h1
        · exact hdd x h1
        · exact Or.inr h1
    intro x hx
    rcases hQ2 x hx with h1 | h1
    · exact h1
    · rw [h1]; exact hn

theorem collectFound_values (m : DefinitionsMap) :
    ∀ x ∈ collectFound m, mapHasValue m x := by
  unfold collectFound
  have haux : ∀ (es : List (MemTarget × TargetBuckets)) (acc : NodeSet),
      (∀ x ∈ acc, mapHasValue m x) → (∀ e ∈ es, e ∈ m.entries) →
      ∀ x ∈ es.foldl (fun f e => e.snd.foldl (fun f2 it => nsUnion f2 it.snd) f) acc,
        mapHasValue m x := by
    intro es
    induction es with
    | nil => intro acc hacc _ x hx; exact hacc x hx
    | cons e tl ih =>
      intro acc hacc hes x hx
      simp only [List.foldl_cons] at hx
      refine ih _ ?_ (fun e2 he2 => hes e2 (List.mem_cons_of_mem e he2)) x hx
      have hinner : ∀ (its : List (Interval × NodeSet)) (acc2 : NodeSet),
          (∀ z ∈ acc2, mapHasValue m z) → (∀ it ∈ its, it ∈ e.snd) →
          ∀ z ∈ its.foldl (fun f2 it => nsUnion f2 it.snd) acc2, mapHasValue m z := by
        intro its
        induction its with
        | nil => intro acc2 h2 _ z hz; exact h2 z hz
        | cons it tl2 ih2 =>
          intro acc2 h2 hits z hz
          simp only [List.foldl_cons] at hz
          refine ih2 _ ?_ (fun it2 hit2 => hits it2 (List.mem_cons_of_mem it hit2)) z hz
          intro w hw
          rcases mem_nsUnion hw with h3 | h3
          · exact h2 w h3
          · exact ⟨e, hes e (by simp), it, hits it (by simp), h3⟩
      exact hinner e.snd acc hacc (fun it hit => hit)
  exact fun x hx => haux m.entries [] (fun z hz => absurd hz (List.not_mem_nil z))
    (fun e he => he) x hx

theorem findAllRD_stable (σ : AState) (U : List NodeId) (W : List BlockId)
    (hdu : ∀ m x, x ∈ σ.defuse m → x ∈ U)
    (hBV : ∀ b e it x, e ∈ (σ.blockDefs b).entries → it ∈ e.snd → x ∈ it.snd → x ∈ U)
    (hBN : ∀ b nd, nd ∈ σ.blockNodes b → nd ∈ U)
    (hW : ∀ b p, p ∈ σ.preds b → p ∈ W)
    (fromN : NodeId) :
    ∀ f1 f2, U.length + W.length + 1 ≤ f1 → U.length + W.length + 1 ≤ f2 →
      findAllReachingDefinitions σ f1 fromN = findAllReachingDefinitions σ f2 fromN := by
  intro f1 f2 hf1 hf2
  cases hb : σ.nodeBlock fromN with
  | none =>
    unfold findAllReachingDefinitions
    rw [hb]
  | some b =>
    rw [findAllRD_some σ f1 fromN b hb, findAllRD_some σ f2 fromN b hb]
    have hfound0U : ∀ x ∈ collectFound
        (lvnReplay σ ((σ.blockNodes b).takeWhile (fun n => decide (n ≠ fromN)))),
        x ∈ U := by
      intro x hx
      have h1 := collectFound_values _ x hx
      have h2 := lvnReplay_values σ _ x h1
      exact hBN b x ((List.takeWhile_sublist _).subset h2)
    have hwq : unvisited W ([] : List BlockId) ≤ W.length := unvisited_le_length W []
    cases hsp : getSinglePredecessor σ b with
    | some p =>
      simp only [hsp]
      have hwstable := walk_stable σ W hW W.length (some p)
        (lvnReplay σ ((σ.blockNodes b).takeWhile (fun n => decide (n ≠ fromN))))
        (collectFound
          (lvnReplay σ ((σ.blockNodes b).takeWhile (fun n => decide (n ≠ fromN)))))
        []
        (fun b2 hb2 => by
          have hpb : p = b2 := by simpa using hb2
          rw [← hpb]
          exact hW b p (singlePred_mem hsp))
        hwq f1 f2 (by omega) (by omega)
      rw [hwstable]
      refine gatherNonPhisDefs_stable σ U hdu _ ?_ f1 f2 (by omega) (by omega)
      intro x hx
      exact walk_found_sub σ U hBV f2 _ (some p) _ [] hfound0U x hx
    | none =>
      simp only [hsp]
      have hfold : ∀ (ps : List BlockId), (∀ r ∈ ps, r ∈ W) →
          ∀ (acc : NodeSet × List BlockId), unvisited W acc.snd ≤ W.length →
          ps.foldl (fun acc p => findAllRDWalk σ f1
            (lvnReplay σ ((σ.blockNodes b).takeWhile (fun n => decide (n ≠ fromN))))
            (some p) acc.fst acc.snd) acc =
          ps.foldl (fun acc p => findAllRDWalk σ f2
            (lvnReplay σ ((σ.blockNodes b).takeWhile (fun n => decide (n ≠ fromN))))
            (some p) acc.fst acc.snd) acc := by
        intro ps hps
        induction ps with
        | nil => intro acc _; rfl
        | cons p tl ihp =>
          intro acc hacc
          simp only [List.foldl_cons]
          have hstep := walk_stable σ W hW W.length (some p)
            (lvnReplay σ ((σ.blockNodes b).takeWhile (fun n => decide (n ≠ fromN))))
            acc.fst acc.snd
            (fun b2 hb2 => by
              have hpb : p = b2 := by simpa using hb2
              rw [← hpb]
              exact hps p (by simp))
            hacc f1 f2 (by omega) (by omega)
          rw [hstep]
          refine ihp (fun r hr => hps r (List.mem_cons_of_mem p hr)) _ ?_
          refine le_trans (unvisited_anti W ?_) hacc
          intro y hy
          exact walk_visited_mono σ f2 _ _ _ _ y hy
      rw [hfold (σ.preds b) (fun r hr => hW b r hr) _ hwq]
      refine gatherNonPhisDefs_stable σ U hdu _ ?_ f1 f2 (by omega) (by omega)
      intro x hx
      refine foldl_inv (fun acc : NodeSet × List BlockId => ∀ y ∈ acc.fst, y ∈ U)
        _ _ _ hfound0U ?_ x hx
      intro a p ha _
      exact walk_found_sub σ U hBV f2 _ (some p) a.fst a.snd ha

theorem findAllRD_nonphi (σ : AState) (fuel : Nat) (fromN : NodeId) :
    ∀ x ∈ findAllReachingDefinitions σ fuel fromN,
      (σ.ndata x).ty ≠ RWNodeType.PHI := by
  intro x hx
  cases hb : σ.nodeBlock fromN with
  | none =>
    unfold findAllReachingDefinitions at hx
    rw [hb] at hx
    exact absurd hx (List.not_mem_nil x)
  | some b =>
    rw [findAllRD_some σ fuel fromN b hb] at hx
    exact gather_nonphi σ fuel _ x hx

theorem mapOn_empty {t : MemTarget} {x : NodeId} :
    ¬ mapHasValueOn DefinitionsMap.empty t x := by
  intro h
  obtain ⟨it, hit, -⟩ := h
  have hb : DefinitionsMap.empty.getBuckets t = [] := rfl
  rw [hb] at hit
  exact absurd hit (List.not_mem_nil it)

theorem mapOn_update_same {m : DefinitionsMap} {ds : DefSite} {v x : NodeId}
    (h : mapHasValueOn (m.update ds v) ds.target x) :
    mapHasValueOn m ds.target x ∨ x = v := by
  obtain ⟨it, hit, hx⟩ := h
  unfold DefinitionsMap.update at hit
  rw [getBuckets_setBuckets] at hit
  unfold IntervalMap.add at hit
  rcases List.mem_append.mp hit with h1 | h2
  · exact Or.inl ⟨it, (mem_killOverlapping h1).1, hx⟩
  · have : it = (ds.interval, [v]) := by simpa using h2
    rw [this] at hx
    exact Or.inr (by simpa using hx)

theorem update_getBuckets_other {m : DefinitionsMap} {ds : DefSite} {v : NodeId}
    {t : MemTarget} (ht : t ≠ ds.target) :
    (m.update ds v).getBuckets t = m.getBuckets t := by
  unfold DefinitionsMap.update
  exact getBuckets_setBuckets_other ht

theorem mem_gapsFold {gaps : List Interval} {vs : NodeSet} {acc : TargetBuckets}
    {it : Interval × NodeSet}
    (h : it ∈ gaps.foldl (fun a i => IntervalMap.add a i vs) acc) :
    it ∈ acc ∨ it.snd = vs := by
  induction gaps generalizing acc with
  | nil => exact Or.inl h
  | cons g tl ih =>
    simp only [List.foldl_cons] at h
    rcases ih h with h1 | h1
    · unfold IntervalMap.add at h1
      rcases List.mem_append.mp h1 with h2 | h2
      · exact Or.inl h2
      · have : it = (g, vs) := by simpa using h2
        exact Or.inr (by rw [this])
    · exact Or.inr h1

theorem mapOn_addSet_same {m : DefinitionsMap} {ds : DefSite} {vs : NodeSet}
    {x : NodeId} (h : mapHasValueOn (m.addSet ds vs) ds.target x) :
    mapHasValueOn m ds.target x ∨ x ∈ vs := by
  obtain ⟨it, hit, hx⟩ := h
  simp only [DefinitionsMap.addSet] at hit
  by_cases hu : ds.interval.isUnknown = true
  · rw [if_pos hu] at hit
    rw [getBuckets_setBuckets] at hit
    unfold IntervalMap.add at hit
    rcases List.mem_append.mp hit with h1 | h2
    · exact Or.inl ⟨it, h1, hx⟩
    · have : it = (ds.interval, vs) := by simpa using h2
      rw [this] at hx
      exact Or.inr hx
  · rw [if_neg hu] at hit
    rw [getBuckets_setBuckets] at hit
    rcases mem_gapsFold hit with h1 | h1
    · rcases List.mem_map.mp h1 with ⟨it0, hit0, heq⟩
      by_cases hov : it0.fst.overlaps ds.interval = true
      · rw [if_pos hov] at heq
        rw [← heq] at hx
        simp only at hx
        rcases mem_nsUnion hx with h2 | h2
        · exact Or.inl ⟨it0, hit0, h2⟩
        · exact Or.inr h2
      · rw [if_neg hov] at heq
        rw [← heq] at hx
        exact Or.inl ⟨it0, hit0, hx⟩
    · rw [h1] at hx
      exact Or.inr hx

theorem addSet_getBuckets_other {m : DefinitionsMap} {ds : DefSite} {vs : NodeSet}
    {t : MemTarget} (ht : t ≠ ds.target) :
    (m.addSet ds vs).getBuckets t = m.getBuckets t := by
  simp only [DefinitionsMap.addSet]
  by_cases hu : ds.interval.isUnknown = true
  · rw [if_pos hu]
    exact getBuckets_setBuckets_other ht
  · rw [if_neg hu]
    exact getBuckets_setBuckets_other ht

theorem mapOn_add_same {m : DefinitionsMap} {ds : DefSite} {v x : NodeId}
    (h : mapHasValueOn (m.add ds v) ds.target x) :
    mapHasValueOn m ds.target x ∨ x = v := by
  rcases mapOn_addSet_same (show mapHasValueOn (m.addSet ds [v]) ds.target x from h)
    with h1 | h1
  · exact Or.inl h1
  · exact Or.inr (by simpa using h1)

theorem add_getBuckets_other {m : DefinitionsMap} {ds : DefSite} {v : NodeId}
    {t : MemTarget} (ht : t ≠ ds.target) :
    (m.add ds v).getBuckets t = m.getBuckets t :=
  addSet_getBuckets_other ht

theorem getBuckets_addAll (m : DefinitionsMap) (v : NodeId) (t : MemTarget) :
    (m.addAll v).getBuckets t
      = (m.getBuckets t).map (fun it => (it.fst, nsInsert it.snd v)) := by
  unfold DefinitionsMap.addAll DefinitionsMap.getBuckets
  simp only
  induction m.entries with
  | nil => rfl
  | cons e tl ih =>
    by_cases he : e.fst = t
    · rw [List.map_cons, List.find?_cons_of_pos _ (by simpa using he),
        List.find?_cons_of_pos _ (by simpa using he)]
    · rw [List.map_cons, List.find?_cons_of_neg _ (by simpa using he),
        List.find?_cons_of_neg _ (by simpa using he)]
      exact ih

theorem mapOn_addAll {m : DefinitionsMap} {v x : NodeId} {t : MemTarget}
    (h : mapHasValueOn (m.addAll v) t x) :
    mapHasValueOn m t x ∨ x = v := by
  obtain ⟨it, hit, hx⟩ := h
  rw [getBuckets_addAll] at hit
  rcases List.mem_map.mp hit with ⟨it0, hit0, heq⟩
  rw [← heq] at hx
  simp only at hx
  rcases mem_nsInsert hx with h1 | h1
  · exact Or.inl ⟨it0, hit0, h1⟩
  · exact Or.inr h1

theorem setBlockDefs_same (σ : AState) (b : BlockId) (m : DefinitionsMap) :
    (σ.setBlockDefs b m).blockDefs b = m := by
  unfold AState.setBlockDefs
  simp

theorem addDefuse_other {σ : AState} {k n : NodeId} (h : k ≠ n) (vs : NodeSet) :
    (σ.addDefuse n vs).defuse k = σ.defuse k := by
  unfold AState.addDefuse
  simp [h]

theorem addDefuse_same (σ : AState) (n : NodeId) (vs : NodeSet) :
    (σ.addDefuse n vs).defuse n = nsUnion (σ.defuse n) vs := by
  unfold AState.addDefuse
  simp

theorem prepend_blockDefs (σ : AState) (b : BlockId) (n : NodeId) :
    (prependAndUpdateCFG σ b n).blockDefs = σ.blockDefs := rfl

theorem prepend_defuse (σ : AState) (b : BlockId) (n : NodeId) :
    (prependAndUpdateCFG σ b n).defuse = σ.defuse := rfl

theorem prepend_nextId (σ : AState) (b : BlockId) (n : NodeId) :
    (prependAndUpdateCFG σ b n).nextId = σ.nextId := rfl

theorem createPhi_blockDefs (σ : AState) (d : DefSite) :
    (createPhi σ d).snd.blockDefs = σ.blockDefs := rfl

theorem createPhi_defuse (σ : AState) (d : DefSite) :
    (createPhi σ d).snd.defuse = σ.defuse := rfl

theorem createPhi_fst (σ : AState) (d : DefSite) :
    (createPhi σ d).fst = σ.nextId := rfl

theorem createPhi_nextId (σ : AState) (d : DefSite) :
    (createPhi σ d).snd.nextId = σ.nextId + 1 := rfl

theorem setBlockDefs_defuse (σ : AState) (b : BlockId) (m : DefinitionsMap) :
    (σ.setBlockDefs b m).defuse = σ.defuse := rfl

theorem setBlockDefs_nextId (σ : AState) (b : BlockId) (m : DefinitionsMap) :
    (σ.setBlockDefs b m).nextId = σ.nextId := rfl

theorem addDefuse_blockDefs (σ : AState) (n : NodeId) (vs : NodeSet) :
    (σ.addDefuse n vs).blockDefs = σ.blockDefs := rfl

theorem addDefuse_nextId (σ : AState) (n : NodeId) (vs : NodeSet) :
    (σ.addDefuse n vs).nextId = σ.nextId := rfl

theorem fdib_defuse (σ : AState) (b : BlockId) (ds : DefSite) :
    (findDefinitionsInBlock σ b ds).snd.defuse = σ.defuse := by
  unfold findDefinitionsInBlock
  exact foldl_inv (fun acc : NodeSet × AState => acc.snd.defuse = σ.defuse)
    _ _ _ rfl (fun acc i hacc _ => hacc)

theorem fdib_nextId (σ : AState) (b : BlockId) (ds : DefSite) :
    σ.nextId ≤ (findDefinitionsInBlock σ b ds).snd.nextId := by
  unfold findDefinitionsInBlock
  exact foldl_inv (fun acc : NodeSet × AState => σ.nextId ≤ acc.snd.nextId)
    _ _ _ (le_refl _) (fun acc i hacc _ => le_trans hacc (Nat.le_succ _))

theorem fdib_result (σ : AState) (b : BlockId) (ds : DefSite) :
    ∀ x ∈ (findDefinitionsInBlock σ b ds).fst,
      x ∈ (σ.blockDefs b).get ds ∨
      x ∈ (σ.blockDefs b).get ⟨MemTarget.unknownMem, Offset.known 0, Offset.unknown⟩ ∨
      σ.nextId ≤ x := by
  unfold findDefinitionsInBlock
  refine (foldl_inv (fun acc : NodeSet × AState =>
      (∀ x ∈ acc.fst,
        x ∈ (σ.blockDefs b).get ds ∨
        x ∈ (σ.blockDefs b).get ⟨MemTarget.unknownMem, Offset.known 0, Offset.unknown⟩ ∨
        σ.nextId ≤ x) ∧ σ.nextId ≤ acc.snd.nextId)
    _ _ _ ⟨?_, le_refl _⟩ ?_).1
  · intro x hx
    rcases List.mem_append.mp hx with h1 | h2
    · exact Or.inl h1
    · exact Or.inr (Or.inl h2)
  · intro acc i hacc _
    refine ⟨?_, le_trans hacc.2 (Nat.le_succ _)⟩
    intro x hx
    rcases List.mem_append.mp hx with h1 | h2
    · exact hacc.1 x h1
    · have hxp : x = acc.snd.nextId := by simpa using h2
      exact Or.inr (Or.inr (le_trans hacc.2 (le_of_eq hxp.symm)))

theorem fdib_mapOn (σ : AState) (b : BlockId) (ds : DefSite) :
    ∀ (t : MemTarget) (x : NodeId),
      mapHasValueOn ((findDefinitionsInBlock σ b ds).snd.blockDefs b) t x →
      mapHasValueOn (σ.blockDefs b) t x ∨ σ.nextId ≤ x := by
  unfold findDefinitionsInBlock
  refine (foldl_inv (fun acc : NodeSet × AState =>
      (∀ (t : MemTarget) (x : NodeId),
        mapHasValueOn (acc.snd.blockDefs b) t x →
        mapHasValueOn (σ.blockDefs b) t x ∨ σ.nextId ≤ x) ∧
      σ.nextId ≤ acc.snd.nextId)
    _ _ _ ⟨fun t x h => Or.inl h, le_refl _⟩ ?_).1
  intro acc i hacc _
  refine ⟨?_, le_trans hacc.2 (Nat.le_succ _)⟩
  intro t x hOn
  dsimp only at hOn
  rw [prepend_blockDefs, setBlockDefs_same, createPhi_blockDefs, createPhi_fst] at hOn
  by_cases ht : t = ds.target
  · subst ht
    rcases mapOn_update_same hOn with h1 | h1
    · exact hacc.1 _ x h1
    · exact Or.inr (le_trans hacc.2 (le_of_eq h1.symm))
  · obtain ⟨it, hit, hx⟩ := hOn
    rw [@update_getBuckets_other (acc.snd.blockDefs b) ⟨ds.target, i.start, i.len⟩
      acc.snd.nextId t ht] at hit
    exact hacc.1 t x ⟨it, hit, hx⟩

theorem lvnNode_defuse_other (b : BlockId) (σ : AState) (m n : NodeId) (hnm : n ≠ m) :
    (lvnNode b σ m).defuse n = σ.defuse n := by
  unfold lvnNode
  refine foldl_inv (fun σa : AState => σa.defuse n = σ.defuse n) _ _ _ ?_ ?_
  · refine foldl_inv (fun σa : AState => σa.defuse n = σ.defuse n) _ _ _ ?_ ?_
    · exact foldl_inv (fun σa : AState => σa.defuse n = σ.defuse n) _ _ _ rfl
        (fun σa ds hσa _ => hσa)
    · intro σa ds hσa _
      by_cases hu : ds.target.isUnknown = true
      · simp only [if_pos hu]
        exact hσa
      · simp only [if_neg hu]
        show ((findDefinitionsInBlock σa b ds).snd.addDefuse m
            (findDefinitionsInBlock σa b ds).fst).defuse n = σ.defuse n
        rw [addDefuse_other hnm]
        rw [congrFun (fdib_defuse σa b ds) n]
        exact hσa
  · intro σa ds hσa _
    show ((findDefinitionsInBlock σa b ds).snd.addDefuse m
        (findDefinitionsInBlock σa b ds).fst).defuse n = σ.defuse n
    rw [addDefuse_other hnm]
    rw [congrFun (fdib_defuse σa b ds) n]
    exact hσa

theorem lvnNode_map_nextId (b : BlockId) (σ : AState) (m : NodeId) :
    (∀ (t : MemTarget) (x : NodeId),
      mapHasValueOn ((lvnNode b σ m).blockDefs b) t x →
      mapHasValueOn (σ.blockDefs b) t x ∨ x = m ∨ σ.nextId ≤ x) ∧
    σ.nextId ≤ (lvnNode b σ m).nextId := by
  unfold lvnNode
  refine foldl_inv (fun σa : AState =>
      (∀ (t : MemTarget) (x : NodeId),
        mapHasValueOn (σa.blockDefs b) t x →
        mapHasValueOn (σ.blockDefs b) t x ∨ x = m ∨ σ.nextId ≤ x) ∧
      σ.nextId ≤ σa.nextId) _ _ _ ?_ ?_
  · -- the defs fold applied to the overwrites fold
    refine foldl_inv (fun σa : AState =>
        (∀ (t : MemTarget) (x : NodeId),
          mapHasValueOn (σa.blockDefs b) t x →
          mapHasValueOn (σ.blockDefs b) t x ∨ x = m ∨ σ.nextId ≤ x) ∧
        σ.nextId ≤ σa.nextId) _ _ _ ?_ ?_
    · -- the overwrites fold
      refine foldl_inv (fun σa : AState =>
          (∀ (t : MemTarget) (x : NodeId),
            mapHasValueOn (σa.blockDefs b) t x →
            mapHasValueOn (σ.blockDefs b) t x ∨ x = m ∨ σ.nextId ≤ x) ∧
          σ.nextId ≤ σa.nextId) _ _ _ ⟨fun t x h => Or.inl h, le_refl _⟩ ?_
      intro σa ds hσa _
      refine ⟨?_, hσa.2⟩
      intro t x h
      rw [setBlockDefs_same] at h
      by_cases ht : t = ds.target
      · subst ht
        rcases mapOn_update_same h with h1 | h1
        · exact hσa.1 _ x h1
        · exact Or.inr (Or.inl h1)
      · obtain ⟨it, hit, hx⟩ := h
        rw [@update_getBuckets_other (σa.blockDefs b) ds m t ht] at hit
        exact hσa.1 t x ⟨it, hit, hx⟩
    · -- the defs fold steps
      intro σa ds hσa _
      by_cases hu : ds.target.isUnknown = true
      · simp only [if_pos hu]
        refine ⟨?_, hσa.2⟩
        intro t x h
        rw [setBlockDefs_same, setBlockDefs_same] at h
        have hsplit : mapHasValueOn ((σa.blockDefs b).addAll m) t x ∨ x = m := by
          by_cases ht : t = ds.target
          · subst ht
            exact @mapOn_add_same ((σa.blockDefs b).addAll m)
              ⟨ds.target, Offset.known 0, Offset.unknown⟩ m x h
          · obtain ⟨it, hit, hx⟩ := h
            rw [@add_getBuckets_other ((σa.blockDefs b).addAll m)
              ⟨ds.target, Offset.known 0, Offset.unknown⟩ m t ht] at hit
            exact Or.inl ⟨it, hit, hx⟩
        rcases hsplit with h1 | h1
        · rcases mapOn_addAll h1 with h2 | h2
          · exact hσa.1 t x h2
          · exact Or.inr (Or.inl h2)
        · exact Or.inr (Or.inl h1)
      · simp only [if_neg hu]
        constructor
        · intro t x h
          rw [setBlockDefs_same, addDefuse_blockDefs] at h
          have hsplit : mapHasValueOn
              ((findDefinitionsInBlock σa b ds).snd.blockDefs b) t x ∨ x = m := by
            by_cases ht : t = ds.target
            · subst ht
              exact mapOn_add_same h
            · obtain ⟨it, hit, hx⟩ := h
              rw [@add_getBuckets_other
                ((findDefinitionsInBlock σa b ds).snd.blockDefs b) ds m t ht] at hit
              exact Or.inl ⟨it, hit, hx⟩
          rcases hsplit with h1 | h1
          · rcases fdib_mapOn σa b ds t x h1 with h2 | h2
            · exact hσa.1 t x h2
            · exact Or.inr (Or.inr (le_trans hσa.2 h2))
          · exact Or.inr (Or.inl h1)
        · show σ.nextId ≤ (findDefinitionsInBlock σa b ds).snd.nextId
          exact le_trans hσa.2 (fdib_nextId σa b ds)
  · -- the uses fold steps
    intro σa ds hσa _
    constructor
    · intro t x h
      rw [addDefuse_blockDefs] at h
      rcases fdib_mapOn σa b ds t x h with h2 | h2
      · exact hσa.1 t x h2
      · exact Or.inr (Or.inr (le_trans hσa.2 h2))
    · show σ.nextId ≤ (findDefinitionsInBlock σa b ds).snd.nextId
      exact le_trans hσa.2 (fdib_nextId σa b ds)

theorem fdib_ndata (σ : AState) (b : BlockId) (ds : DefSite) (k : NodeId)
    (hk : k < σ.nextId) :
    (findDefinitionsInBlock σ b ds).snd.ndata k = σ.ndata k := by
  unfold findDefinitionsInBlock
  refine (foldl_inv (fun acc : NodeSet × AState =>
      acc.snd.ndata k = σ.ndata k ∧ σ.nextId ≤ acc.snd.nextId) _ _ _
      ⟨rfl, le_refl _⟩ ?_).1
  intro acc i hacc _
  refine ⟨?_, le_trans hacc.2 (Nat.le_succ _)⟩
  show (createPhi acc.snd ⟨ds.target, i.start, i.len⟩).snd.ndata k = σ.ndata k
  unfold createPhi
  simp only
  rw [if_neg (Nat.ne_of_lt (lt_of_lt_of_le hk hacc.2))]
  exact hacc.1

theorem lvnNode_ndata (b : BlockId) (σ : AState) (m k : NodeId) (hk : k < σ.nextId) :
    (lvnNode b σ m).ndata k = σ.ndata k := by
  unfold lvnNode
  refine (foldl_inv (fun σa : AState =>
      σa.ndata k = σ.ndata k ∧ σ.nextId ≤ σa.nextId) _ _ _ ?_ ?_).1
  · refine foldl_inv (fun σa : AState =>
        σa.ndata k = σ.ndata k ∧ σ.nextId ≤ σa.nextId) _ _ _ ?_ ?_
    · exact foldl_inv (fun σa : AState =>
        σa.ndata k = σ.ndata k ∧ σ.nextId ≤ σa.nextId) _ _ _ ⟨rfl, le_refl _⟩
        (fun σa ds hσa _ => hσa)
    · intro σa ds hσa _
      by_cases hu : ds.target.isUnknown = true
      · simp only [if_pos hu]
        exact hσa
      · simp only [if_neg hu]
        have hka : k < σa.nextId := lt_of_lt_of_le hk hσa.2
        constructor
        · show (findDefinitionsInBlock σa b ds).snd.ndata k = σ.ndata k
          rw [fdib_ndata σa b ds k hka]
          exact hσa.1
        · show σ.nextId ≤ (findDefinitionsInBlock σa b ds).snd.nextId
          exact le_trans hσa.2 (fdib_nextId σa b ds)
  · intro σa ds hσa _
    have hka : k < σa.nextId := lt_of_lt_of_le hk hσa.2
    constructor
    · show (findDefinitionsInBlock σa b ds).snd.ndata k = σ.ndata k
      rw [fdib_ndata σa b ds k hka]
      exact hσa.1
    · show σ.nextId ≤ (findDefinitionsInBlock σa b ds).snd.nextId
      exact le_trans hσa.2 (fdib_nextId σa b ds)

/-! ## Claim theorems -/

/-- C9: the unknown-interval sentinel rule — Interval::overlaps returns
false whenever either operand is unknown, where an interval is unknown
exactly when its start offset is UNKNOWN or its length equals 0; in
particular a zero-length interval never overlaps anything. -/
theorem C9_unknown_never_overlaps :
    ∀ a b : Interval,
      (a.start = Offset.unknown ∨ a.len = Offset.known 0 ∨
       b.start = Offset.unknown ∨ b.len = Offset.known 0) →
      a.overlaps b = false := by
  intro a b h
  have hu : (a.isUnknown || b.isUnknown) = true := by
    rcases h with h | h | h | h <;>
      simp [Interval.isUnknown, Offset.isUnknown, h]
  unfold Interval.overlaps
  rw [hu]
  rfl

/-- Witness for C9 at a concrete zero-length interval. -/
theorem C9_unknown_never_overlaps_witness :
    (Interval.mk (Offset.known 3) (Offset.known 0)).len = Offset.known 0 ∧
    (Interval.mk (Offset.known 3) (Offset.known 0)).overlaps
      ⟨Offset.known 0, Offset.known 10⟩ = false :=
  ⟨rfl, C9_unknown_never_overlaps _ _ (Or.inr (Or.inl rfl))⟩

/-- C2 exhibits the kill bug: on the map {[0,8) -> {1}}, the strong-update
kill of [2,4) erases the whole bucket (the split pieces are computed into
the local to_add vector but never re-inserted), so the query [0,2) — bytes
outside the updated range — loses its value set; under the documented
splitting behaviour the value is retained. -/
theorem C2_kill_drops_outside_coverage :
    IntervalMap.collectAll [(⟨Offset.known 0, Offset.known 8⟩, [1])]
      ⟨Offset.known 0, Offset.known 2⟩ = [[1]] ∧
    IntervalMap.collectAll
      (IntervalMap.add
        (IntervalMap.killOverlapping [(⟨Offset.known 0, Offset.known 8⟩, [1])]
          ⟨Offset.known 2, Offset.known 2⟩)
        ⟨Offset.known 2, Offset.known 2⟩ [2])
      ⟨Offset.known 0, Offset.known 2⟩ = [] ∧
    IntervalMap.collectAll
      (IntervalMap.add
        (killOverlappingDocumented [(⟨Offset.known 0, Offset.known 8⟩, [1])]
          ⟨Offset.known 2, Offset.known 2⟩)
        ⟨Offset.known 2, Offset.known 2⟩ [2])
      ⟨Offset.known 0, Offset.known 2⟩ = [[1]] := by decide

/-- C7: findDefinitions on a null block returns the empty definition set
and leaves the analysis state (every block's definitions map, the PHI
registry, everything) unchanged. -/
theorem C7_null_block_returns_empty :
    ∀ (fuel : Nat) (σ : AState) (ds : DefSite),
      findDefinitions fuel σ none ds = ([], σ) := by
  intro fuel σ ds
  cases fuel <;> rfl

/-- C6, scenario S4: for the block [n1: overwrites (t,0,4)]
[nU: defs (UNKNOWN_MEMORY,0,UNKNOWN)] [u: uses (t,0,4)] the analysis yields
reachingDefinitions(u) = {n1, nU}; the unknown write is broadcast into the
existing map entry and registered under (UNKNOWN_MEMORY, 0, UNKNOWN), no
PHI is created, and nU itself receives no defuse edges. -/
theorem C6_unknown_write_taints :
    getReachingDefinitions (runAnalysis id 10 10 s4state) 20 3 = [1, 2] ∧
    (performLvn s4state).phis = [] ∧
    (runAnalysis id 10 10 s4state).phis = [] ∧
    (runAnalysis id 10 10 s4state).defuse 2 = [] ∧
    DefinitionsMap.get ((performLvn s4state).blockDefs 0)
      ⟨MemTarget.unknownMem, Offset.known 0, Offset.unknown⟩ = [2] ∧
    DefinitionsMap.get ((performLvn s4state).blockDefs 0)
      ⟨MemTarget.var 0, Offset.known 0, Offset.known 4⟩ = [1, 2] := by decide

/-- C8 counterexample: on c8state the pipeline run with worklist order
key = id gives PHI 4 the defuse set {5, 6}, while the run with the reversed
order gives it {5}: the GVN worklist processing order does change the final
defuse sets. -/
theorem C8_order_changes_defuse :
    (runAnalysis id 10 10 c8state).defuse 4 = [5, 6] ∧
    (runAnalysis (fun n => 1000 - n) 10 10 c8state).defuse 4 = [5] ∧
    ([5, 6] : List NodeId) ≠ [5] := by decide

/-- C8 amended: the pipeline is a deterministic function of the input graph
together with the worklist pop order — two runs that pop the GVN worklist
in the same order produce identical analysis states, hence byte-identical
defuse sets; order-independence itself fails (see the counterexample). -/
theorem C8_same_order_same_result :
    ∀ (key1 key2 : NodeId → Nat) (fdFuel gvnFuel : Nat) (σ : AState),
      (∀ n, key1 n = key2 n) →
      runAnalysis key1 fdFuel gvnFuel σ = runAnalysis key2 fdFuel gvnFuel σ := by
  intro k1 k2 fd gv σ h
  rw [funext h]

/-- Witness for the amended C8 at the concrete divergence input. -/
theorem C8_same_order_same_result_witness :
    runAnalysis id 10 10 c8state = runAnalysis id 10 10 c8state :=
  C8_same_order_same_result id id 10 10 c8state (fun _ => rfl)

/-- C1 counterexample: in c1state, node 1 weakly defines target t at
unknown offsets and node 2 then overwrites (t, 0, 4); immediately after LVN
processes that overwrites entry (the last action of the block),
get((t,0,4)) still reports node 1 besides node 2, so it is not exactly the
singleton {node 2}. -/
theorem C1_not_exactly_singleton :
    1 ∈ DefinitionsMap.get ((performLvn c1state).blockDefs 0)
          ⟨MemTarget.var 0, Offset.known 0, Offset.known 4⟩ ∧
    2 ∈ DefinitionsMap.get ((performLvn c1state).blockDefs 0)
          ⟨MemTarget.var 0, Offset.known 0, Offset.known 4⟩ ∧
    (1 : NodeId) ≠ 2 := by decide

/-- C1 amended: the strong update update(ds, node) followed by get(ds)
yields exactly the singleton {node}, provided the range of ds is not the
unknown interval and no interval key currently recorded for ds.target is
unknown — every known-keyed bucket overlapping ds is killed and the fresh
bucket ds.range -> {node} is the only match of the query. -/
theorem C1_strong_update_kill (m : DefinitionsMap) (ds : DefSite) (n : NodeId)
    (hds : ds.interval.isUnknown = false)
    (hb : ∀ it ∈ m.getBuckets ds.target, it.fst.isUnknown = false) :
    (m.update ds n).get ds = [n] := by
  have hget : (m.update ds n).getBuckets ds.target =
      IntervalMap.add
        (IntervalMap.killOverlapping (m.getBuckets ds.target) ds.interval)
        ds.interval [n] := by
    unfold DefinitionsMap.update
    exact getBuckets_setBuckets ..
  have h1 : ds.interval.overlaps ds.interval = true := overlaps_self_of_not_unknown hds
  have hrest : ((IntervalMap.killOverlapping (m.getBuckets ds.target)
      ds.interval).reverse.filter
      (fun it => ds.interval.isUnknown || it.fst.isUnknown ||
        it.fst.overlaps ds.interval)) = [] := by
    rw [List.filter_eq_nil_iff]
    intro x hx
    rw [List.mem_reverse] at hx
    obtain ⟨hmem, hnov⟩ := mem_killOverlapping hx
    rw [hds, hb x hmem, hnov]
    simp
  unfold DefinitionsMap.get
  rw [hget]
  unfold IntervalMap.add IntervalMap.collectAll
  rw [List.reverse_append, List.filter_append, hrest]
  simp only [List.reverse_cons, List.reverse_nil, List.nil_append, List.filter_cons,
    List.filter_nil, hds, h1, Bool.or_true, Bool.false_or, if_true]
  simp [nsUnion, nsInsert]

/-- C3: in findDefinitions(block, ds), when the uncovered gap list is [i]:
with exactly one predecessor the function recurses into it and appends the
result, creating nothing in this block; with zero or several predecessors
it creates a PHI p = nextId whose single overwrites entry is
(ds.target, i.start, i.len), records p in the block's definitions map under
that interval, prepends p to the block with the CFG backreference set,
appends p to the PHI registry, and includes p in the returned set. -/
theorem C3_findDefinitions_uncovered (σ : AState) (b : BlockId) (ds : DefSite)
    (i : Interval) (fuel : Nat)
    (hunc : (σ.blockDefs b).undefinedIntervals ds = [i]) :
    (∀ p, σ.preds b = [p] →
      findDefinitions (fuel + 1) σ (some b) ds =
        (localDefs σ b ds ++ (findDefinitions fuel σ (some p) ds).fst,
         (findDefinitions fuel σ (some p) ds).snd)) ∧
    ((∀ q, σ.preds b ≠ [q]) →
      (findDefinitions (fuel + 1) σ (some b) ds).fst
          = localDefs σ b ds ++ [σ.nextId] ∧
      ((findDefinitions (fuel + 1) σ (some b) ds).snd.ndata σ.nextId)
          = ⟨RWNodeType.PHI, [⟨ds.target, i.start, i.len⟩], [], []⟩ ∧
      (findDefinitions (fuel + 1) σ (some b) ds).snd.blockDefs b
          = (σ.blockDefs b).update ⟨ds.target, i.start, i.len⟩ σ.nextId ∧
      (findDefinitions (fuel + 1) σ (some b) ds).snd.blockNodes b
          = σ.nextId :: σ.blockNodes b ∧
      (findDefinitions (fuel + 1) σ (some b) ds).snd.phis = σ.phis ++ [σ.nextId] ∧
      (findDefinitions (fuel + 1) σ (some b) ds).snd.nodeBlock σ.nextId = some b) := by
  constructor
  · intro p hp
    have hsp : getSinglePredecessor σ b = some p := by
      unfold getSinglePredecessor; rw [hp]
    rw [findDefinitions_succ, hunc]
    simp only [List.foldl_cons, List.foldl_nil, hsp]
  · intro h
    have hsp : getSinglePredecessor σ b = none := by
      unfold getSinglePredecessor
      cases hp : σ.preds b with
      | nil => rfl
      | cons p tl =>
        cases tl with
        | nil => exact absurd hp (h p)
        | cons q tl2 => rfl
    rw [findDefinitions_succ, hunc]
    simp only [List.foldl_cons, List.foldl_nil, hsp]
    refine ⟨rfl, ?_, ?_, ?_, ?_, ?_⟩ <;>
      simp [createPhi, AState.setBlockDefs, prependAndUpdateCFG, localDefs]

/-- Witness for C3 at the entry block of c8state (no predecessors, the gap
over (t, 0, 4) uncovered). -/
theorem C3_findDefinitions_uncovered_witness :
    (findDefinitions 3 c8state (some 0) ⟨MemTarget.var 0, Offset.known 0, Offset.known 4⟩).fst
        = localDefs c8state 0 ⟨MemTarget.var 0, Offset.known 0, Offset.known 4⟩ ++ [3] ∧
    (findDefinitions 3 c8state (some 0)
        ⟨MemTarget.var 0, Offset.known 0, Offset.known 4⟩).snd.phis = c8state.phis ++ [3] :=
  by
  have h := C3_findDefinitions_uncovered c8state 0
    ⟨MemTarget.var 0, Offset.known 0, Offset.known 4⟩ ⟨Offset.known 0, Offset.known 4⟩ 2
    (by decide)
  have h2 := h.2 (by
    intro q hq
    rw [show c8state.preds 0 = [] from rfl] at hq
    exact List.noConfusion hq)
  exact ⟨h2.1, h2.2.2.2.2.1⟩

/-- C10: every PHI created during LVN or GVN is prepended into a block at
creation, so its block backreference is set from then on; consequently,
starting from a frontend state whose PHI registry is empty (other nodes may
well have null block backreferences), GVN never pops a PHI whose block is
null — the hitNull flag marking the unconditional block access of the C++
on a null block stays false. -/
theorem C10_gvn_never_null_block :
    ∀ (σ0 : AState) (key : NodeId → Nat) (fdFuel gvnFuel : Nat),
      σ0.phis = [] →
      (∀ p ∈ (performLvn σ0).phis, ((performLvn σ0).nodeBlock p).isSome = true) ∧
      (performGvn key fdFuel gvnFuel (performLvn σ0)).hitNull = false := by
  intro σ0 key fdFuel gvnFuel h0
  have hlvn : PhisHaveBlocks (performLvn σ0) := by
    refine performLvn_inv σ0 ?_
    intro p hp
    rw [h0] at hp
    exact absurd hp (List.not_mem_nil p)
  exact ⟨hlvn, (gvnLoop_safe key fdFuel gvnFuel (performLvn σ0)
    (performLvn σ0).phis hlvn (fun x hx => hx)).2⟩

/-- Witness for C10 on the S4 input graph. -/
theorem C10_gvn_never_null_block_witness :
    (performGvn id 10 10 (performLvn s4state)).hitNull = false :=
  (C10_gvn_never_null_block s4state id 10 10 rfl).2

/-- C5: reachingDefinitions terminates on every input RW graph, including
cyclic PHI defuse graphs — formally, under closure hypotheses naming a node
universe U (for defuse sets, map values and block node lists) and a block
universe W (for predecessors), the fuel-indexed embedding stabilizes at the
explicit bound |U| + |W| + 1, so the unbounded C++ recursion (guarded by
its visited sets) computes that stable value; and every node of the
returned list is a non-PHI node. -/
theorem C5_reaching_defs_terminate :
    ∀ (σ : AState) (use : NodeId) (U : List NodeId) (W : List BlockId),
      (∀ m x, x ∈ σ.defuse m → x ∈ U) →
      (∀ b e it x, e ∈ (σ.blockDefs b).entries → it ∈ e.snd → x ∈ it.snd → x ∈ U) →
      (∀ b nd, nd ∈ σ.blockNodes b → nd ∈ U) →
      (∀ b p, p ∈ σ.preds b → p ∈ W) →
      (∀ f, U.length + W.length + 1 ≤ f →
        getReachingDefinitions σ f use
          = getReachingDefinitions σ (U.length + W.length + 1) use) ∧
      (∀ x ∈ getReachingDefinitions σ (U.length + W.length + 1) use,
        (σ.ndata x).ty ≠ RWNodeType.PHI) := by
  intro σ use U W hdu hBV hBN hW
  constructor
  · intro f hf
    unfold getReachingDefinitions
    by_cases hu : usesUnknown σ use = true
    · rw [if_pos hu, if_pos hu]
      exact findAllRD_stable σ U W hdu hBV hBN hW use f _ hf (le_refl _)
    · rw [if_neg hu, if_neg hu]
      exact gatherNonPhisDefs_stable σ U hdu _ (fun x hx => hdu use x hx) f _
        (by omega) (by omega)
  · intro x hx
    unfold getReachingDefinitions at hx
    by_cases hu : usesUnknown σ use = true
    · rw [if_pos hu] at hx
      exact findAllRD_nonphi σ _ use x hx
    · rw [if_neg hu] at hx
      exact gather_nonphi σ _ _ x hx

/-- Witness for C5 on a small resolved state. -/
theorem C5_reaching_defs_terminate_witness :
    getReachingDefinitions c5wstate 9 3
      = getReachingDefinitions c5wstate ([1, 2, 3].length + ([] : List BlockId).length + 1) 3 ∧
    (c5wstate.ndata 1).ty ≠ RWNodeType.PHI := by
  have h := C5_reaching_defs_terminate c5wstate 3 [1, 2, 3] []
    (by
      intro m x hx
      rw [show c5wstate.defuse m = if m = 3 then [1, 2] else [] from rfl] at hx
      by_cases hm : m = 3
      · rw [if_pos hm] at hx
        rcases List.mem_cons.mp hx with rfl | hx2
        · simp
        · rcases List.mem_cons.mp hx2 with rfl | hx3
          · simp
          · exact absurd hx3 (List.not_mem_nil x)
      · rw [if_neg hm] at hx
        exact absurd hx (List.not_mem_nil x))
    (by
      intro b e it x he _ _
      rw [show (c5wstate.blockDefs b).entries = [] from rfl] at he
      exact absurd he (List.not_mem_nil e))
    (by
      intro b nd hnd
      rw [show c5wstate.blockNodes b = if b = 0 then [1, 2, 3] else [] from rfl] at hnd
      by_cases hb : b = 0
      · rw [if_pos hb] at hnd
        exact hnd
      · rw [if_neg hb] at hnd
        exact absurd hnd (List.not_mem_nil nd))
    (by
      intro b p hp
      rw [show c5wstate.preds b = [] from rfl] at hp
      exact absurd hp (List.not_mem_nil p))
  exact ⟨h.1 9 (by decide), h.2 1 (by decide)⟩

/-- C4 counterexample: node 1 both overwrites and weakly defines (t, 0, 4);
LVN processes the overwrites entry first, so the weak-update lookup finds
node 1 itself and 1 ∈ 1.defuse although node 1 is a non-PHI node with a
known-target def-site. -/
theorem C4_self_definition_happens :
    (c4state.ndata 1).ty ≠ RWNodeType.PHI ∧
    (⟨MemTarget.var 0, Offset.known 0, Offset.known 4⟩ : DefSite) ∈ (c4state.ndata 1).defs ∧
    (MemTarget.var 0).isUnknown = false ∧
    1 ∈ (performLvnBlock c4state 0).defuse 1 := by decide

/-- C4 amended: after LVN over a block starting from an empty definitions
map, a non-PHI node n occurring exactly once in the block is not its own
definition, provided n has no overwrites entries, its defs list is exactly
the one def-site ds with a known target, and none of its uses shares
ds.target — then every lookup performed while processing n happens before
anything can have recorded n under the queried target, so neither the weak
update of ds nor any use adds n to n.defuse. -/
theorem C4_no_self_definition (σ : AState) (b : BlockId) (n : NodeId) (ds : DefSite)
    (tv : Nat) (pre suf : List NodeId)
    (hmap : σ.blockDefs b = DefinitionsMap.empty)
    (hdef : σ.defuse n = [])
    (hnodes : σ.blockNodes b = pre ++ n :: suf)
    (hpre : n ∉ pre) (hsuf : n ∉ suf)
    (hid : n < σ.nextId)
    (hov : (σ.ndata n).overwrites = [])
    (hds : (σ.ndata n).defs = [ds])
    (htv : ds.target = MemTarget.var tv)
    (huses : ∀ u ∈ (σ.ndata n).uses, u.target ≠ ds.target)
    (_hnphi : (σ.ndata n).ty ≠ RWNodeType.PHI) :
    n ∉ (performLvnBlock σ b).defuse n := by
  have hB : ∀ σA : AState, σA.defuse n = [] →
      (∀ t, ¬ mapHasValueOn (σA.blockDefs b) t n) →
      σA.ndata n = σ.ndata n → σ.nextId ≤ σA.nextId →
      n ∉ (lvnNode b σA n).defuse n := by
    intro σA hAdef hAOn hAnd hAnext
    unfold lvnNode
    rw [hAnd]
    simp only [hov, hds, List.foldl_cons, List.foldl_nil]
    have hdsu : ds.target.isUnknown = false := by rw [htv]; rfl
    simp only [hdsu, Bool.false_eq_true, if_false]
    have hnotin : n ∉ (findDefinitionsInBlock σA b ds).fst := by
      intro hin
      rcases fdib_result σA b ds n hin with h1 | h2 | h3
      · exact hAOn ds.target (get_values h1)
      · exact hAOn MemTarget.unknownMem (get_values h2)
      · exact absurd (le_trans hAnext h3) (Nat.not_le.mpr hid)
    have hPU :
        (n ∉ (((findDefinitionsInBlock σA b ds).snd.addDefuse
            n (findDefinitionsInBlock σA b ds).fst).setBlockDefs b
            ((((findDefinitionsInBlock σA b ds).snd.addDefuse
              n (findDefinitionsInBlock σA b ds).fst).blockDefs b).add ds n)).defuse n) ∧
        (∀ t, t ≠ ds.target →
          ¬ mapHasValueOn ((((findDefinitionsInBlock σA b ds).snd.addDefuse
            n (findDefinitionsInBlock σA b ds).fst).setBlockDefs b
            ((((findDefinitionsInBlock σA b ds).snd.addDefuse
              n (findDefinitionsInBlock σA b ds).fst).blockDefs b).add
              ds n)).blockDefs b) t n) ∧
        σ.nextId ≤ (((findDefinitionsInBlock σA b ds).snd.addDefuse
            n (findDefinitionsInBlock σA b ds).fst).setBlockDefs b
            ((((findDefinitionsInBlock σA b ds).snd.addDefuse
              n (findDefinitionsInBlock σA b ds).fst).blockDefs b).add ds n)).nextId := by
      refine ⟨?_, ?_, ?_⟩
      · show n ∉ ((findDefinitionsInBlock σA b ds).snd.addDefuse
          n (findDefinitionsInBlock σA b ds).fst).defuse n
        rw [addDefuse_same, congrFun (fdib_defuse σA b ds) n, hAdef]
        intro h
        rcases mem_nsUnion h with h1 | h1
        · exact absurd h1 (List.not_mem_nil n)
        · exact hnotin h1
      · intro t ht h
        rw [setBlockDefs_same, addDefuse_blockDefs] at h
        obtain ⟨it, hit, hx⟩ := h
        rw [@add_getBuckets_other
          ((findDefinitionsInBlock σA b ds).snd.blockDefs b) ds n t ht] at hit
        rcases fdib_mapOn σA b ds t n ⟨it, hit, hx⟩ with h1 | h1
        · exact hAOn t h1
        · exact absurd (le_trans hAnext h1) (Nat.not_le.mpr hid)
      · show σ.nextId ≤ (findDefinitionsInBlock σA b ds).snd.nextId
        exact le_trans hAnext (fdib_nextId σA b ds)
    refine (foldl_inv (fun σa : AState =>
        n ∉ σa.defuse n ∧
        (∀ t, t ≠ ds.target → ¬ mapHasValueOn (σa.blockDefs b) t n) ∧
        σ.nextId ≤ σa.nextId) _ _ _ hPU ?_).1
    intro σa u hσa hu
    refine ⟨?_, ?_, ?_⟩
    · show n ∉ ((findDefinitionsInBlock σa b u).snd.addDefuse
        n (findDefinitionsInBlock σa b u).fst).defuse n
      rw [addDefuse_same, congrFun (fdib_defuse σa b u) n]
      intro h
      rcases mem_nsUnion h with h1 | h1
      · exact hσa.1 h1
      · rcases fdib_result σa b u n h1 with h2 | h3 | h4
        · exact hσa.2.1 u.target (huses u hu) (get_values h2)
        · refine hσa.2.1 MemTarget.unknownMem ?_ (get_values h3)
          rw [htv]
          intro hcon
          exact MemTarget.noConfusion hcon
        · exact absurd (le_trans hσa.2.2 h4) (Nat.not_le.mpr hid)
    · intro t ht h
      rw [show ((findDefinitionsInBlock σa b u).snd.addDefuse
          n (findDefinitionsInBlock σa b u).fst).blockDefs
          = (findDefinitionsInBlock σa b u).snd.blockDefs from rfl] at h
      rcases fdib_mapOn σa b u t n h with h1 | h1
      · exact hσa.2.1 t ht h1
      · exact absurd (le_trans hσa.2.2 h1) (Nat.not_le.mpr hid)
    · show σ.nextId ≤ (findDefinitionsInBlock σa b u).snd.nextId
      exact le_trans hσa.2.2 (fdib_nextId σa b u)
  unfold performLvnBlock
  rw [hnodes, List.foldl_append, List.foldl_cons]
  have hA : (pre.foldl (lvnNode b) σ).defuse n = [] ∧
      (∀ t, ¬ mapHasValueOn ((pre.foldl (lvnNode b) σ).blockDefs b) t n) ∧
      (pre.foldl (lvnNode b) σ).ndata n = σ.ndata n ∧
      σ.nextId ≤ (pre.foldl (lvnNode b) σ).nextId := by
    refine foldl_inv (fun σa : AState =>
        σa.defuse n = [] ∧
        (∀ t, ¬ mapHasValueOn (σa.blockDefs b) t n) ∧
        σa.ndata n = σ.ndata n ∧
        σ.nextId ≤ σa.nextId) _ _ _ ⟨hdef, ?_, rfl, le_refl _⟩ ?_
    · intro t h
      rw [hmap] at h
      exact mapOn_empty h
    · intro σa m hσa hm
      have hnm : n ≠ m := fun he => hpre (he ▸ hm)
      refine ⟨?_, ?_, ?_, ?_⟩
      · rw [lvnNode_defuse_other b σa m n hnm]
        exact hσa.1
      · intro t h
        rcases (lvnNode_map_nextId b σa m).1 t n h with h1 | h1 | h1
        · exact hσa.2.1 t h1
        · exact hnm h1
        · exact absurd (le_trans hσa.2.2.2 h1) (Nat.not_le.mpr hid)
      · rw [lvnNode_ndata b σa m n (lt_of_lt_of_le hid hσa.2.2.2)]
        exact hσa.2.2.1
      · exact le_trans hσa.2.2.2 (lvnNode_map_nextId b σa m).2
  refine foldl_inv (fun σa : AState => n ∉ σa.defuse n) _ _ _
    (hB (pre.foldl (lvnNode b) σ) hA.1 hA.2.1 hA.2.2.1 hA.2.2.2) ?_
  intro σa m hσa hm
  have hnm : n ≠ m := fun he => hsuf (he ▸ hm)
  rw [lvnNode_defuse_other b σa m n hnm]
  exact hσa

/-- Witness for the amended C4 on the single weak definition block. -/
theorem C4_no_self_definition_witness :
    1 ∉ (performLvnBlock c4wstate 0).defuse 1 :=
  C4_no_self_definition c4wstate 0 1 ⟨MemTarget.var 0, Offset.known 0, Offset.known 4⟩
    0 [] [] rfl rfl rfl (List.not_mem_nil 1) (List.not_mem_nil 1) (by decide)
    rfl rfl rfl (fun u hu => absurd hu (List.not_mem_nil u)) (by decide)

/-- Witness for the amended C1 on the empty definitions map. -/
theorem C1_strong_update_kill_witness :
    ((⟨MemTarget.var 0, Offset.known 0, Offset.known 4⟩ : DefSite).interval.isUnknown
      = false) ∧
    (DefinitionsMap.empty.update ⟨MemTarget.var 0, Offset.known 0, Offset.known 4⟩ 7).get
      ⟨MemTarget.var 0, Offset.known 0, Offset.known 4⟩ = [7] :=
  ⟨by decide,
   C1_strong_update_kill DefinitionsMap.empty _ 7 (by decide)
     (by intro it h; simp [DefinitionsMap.getBuckets, DefinitionsMap.empty] at h)⟩

end dg
